import Mathlib

/-!
Verification of the boids flocking simulation core (quadtree spatial index,
flocking solver, integrator/boundary, shock-event system) embedded from the
JavaScript simulation emitted by `agents/boids-singlefile-generator.py`
(identical simulation code in `agents/boids-multifile-generator.py`).

The embedding idealises IEEE doubles as exact ordered-field arithmetic.  The
quadtree is parametric in a linear ordered field so that it can be run on `ℚ`
(for concrete evaluation) and on `ℝ` (inside the physics pipeline).  The
unbounded recursion of `Quadtree.insert` is made total with an explicit fuel
parameter that bounds subdivision depth; exhausting the fuel drops the point
(insert reports `false`), mirroring how the browser build bottoms out once the
node width underflows and the bounds check fails.
-/

namespace Boids

/-- A quadtree node (source: `class QTNode` / `class Quadtree`): either an
undivided leaf holding stored points `(index, x, y)`, or a divided node with
four children NW, NE, SW, SE.  The JS object keeps `count`/`idx`/`ptsx`/`ptsy`
arrays; here the stored points are one list.  `divided` corresponds to the
constructor used. -/
inductive QT (α : Type) : Type
  | leaf (x y w h : α) (pts : List (ℕ × α × α)) : QT α
  | node (x y w h : α) (pts : List (ℕ × α × α)) (nw ne sw se : QT α) : QT α
  deriving DecidableEq

namespace QT

variable {α : Type}

/-- The node's rectangle origin x. -/
def rx : QT α → α
  | .leaf x _ _ _ _ => x
  | .node x _ _ _ _ _ _ _ _ => x

/-- The node's rectangle origin y. -/
def ry : QT α → α
  | .leaf _ y _ _ _ => y
  | .node _ y _ _ _ _ _ _ _ => y

/-- The node's rectangle width. -/
def rw : QT α → α
  | .leaf _ _ w _ _ => w
  | .node _ _ w _ _ _ _ _ _ => w

/-- The node's rectangle height. -/
def rh : QT α → α
  | .leaf _ _ _ h _ => h
  | .node _ _ _ h _ _ _ _ _ => h

/-- Whether the node is divided (`node.divided` in the source). -/
def isDivided : QT α → Prop
  | .leaf _ _ _ _ _ => False
  | .node _ _ _ _ _ _ _ _ _ => True

end QT

variable {α : Type} [LinearOrderedField α]

/-- Membership of a point in the half-open rectangle `[x0, x0+w) × [y0, y0+h)`.
This is the complement of the insert bounds check
`x < node.x || y < node.y || x >= node.x + node.w || y >= node.y + node.h`. -/
def inRect (x0 y0 w h x y : α) : Prop :=
  x0 ≤ x ∧ y0 ≤ y ∧ x < x0 + w ∧ y < y0 + h

instance (x0 y0 w h x y : α) : Decidable (inRect x0 y0 w h x y) := by
  unfold inRect; infer_instance

/-- Child selection used by `insert` and `subdivide`
(`(y < node.y + node.h/2 ? 0 : 2) + (x < node.x + node.w/2 ? 0 : 1)`):
0 = NW, 1 = NE, 2 = SW, 3 = SE. -/
def childIdx (x0 y0 w h x y : α) : ℕ :=
  (if y < y0 + h / 2 then 0 else 2) + (if x < x0 + w / 2 then 0 else 1)

/-- Projection of the four children by child index. -/
def childAt (cs : QT α × QT α × QT α × QT α) : ℕ → QT α
  | 0 => cs.1
  | 1 => cs.2.1
  | 2 => cs.2.2.1
  | _ => cs.2.2.2

/-- Replace one of the four children by child index. -/
def setChild (cs : QT α × QT α × QT α × QT α) (ci : ℕ) (c : QT α) :
    QT α × QT α × QT α × QT α :=
  match ci with
  | 0 => (c, cs.2.1, cs.2.2.1, cs.2.2.2)
  | 1 => (cs.1, c, cs.2.2.1, cs.2.2.2)
  | 2 => (cs.1, cs.2.1, c, cs.2.2.2)
  | _ => (cs.1, cs.2.1, cs.2.2.1, c)

/-- The reinsertion loop of `Quadtree.subdivide`: each stored point is pushed
into the child selected with the parent's geometry via the supplied inserter
(`this.insert(i, x, y, node.children[...])`); the boolean result is discarded,
exactly as in the source. -/
def redist (ins : ℕ → α → α → QT α → QT α × Bool) (x0 y0 w h : α) :
    List (ℕ × α × α) → QT α × QT α × QT α × QT α → QT α × QT α × QT α × QT α
  | [], cs => cs
  | (j, a, b) :: rest, cs =>
    let ci := childIdx x0 y0 w h a b
    let c' := (ins j a b (childAt cs ci)).1
    redist ins x0 y0 w h rest (setChild cs ci c')

/-- `Quadtree.insert`, with `subdivide` inlined (the source's `subdivide`
creates four fresh equal quadrants, reinserts the stored points and clears the
leaf's storage, after which `insert` recurses into the matching child).  The
returned boolean is the source's return value.  `fuel` bounds the subdivision
depth; when it runs out the point is dropped with result `false`. -/
def insertD (cap : ℕ) : ℕ → ℕ → α → α → QT α → QT α × Bool
  | fuel, i, x, y, QT.leaf x0 y0 w h pts =>
    if x < x0 ∨ y < y0 ∨ x0 + w ≤ x ∨ y0 + h ≤ y then
      (QT.leaf x0 y0 w h pts, false)
    else if pts.length < cap then
      (QT.leaf x0 y0 w h (pts ++ [(i, x, y)]), true)
    else
      match fuel with
      | 0 => (QT.leaf x0 y0 w h pts, false)
      | fuel + 1 =>
        -- subdivide: four fresh quadrant children
        let hw := w / 2
        let hh := h / 2
        let cs0 : QT α × QT α × QT α × QT α :=
          (QT.leaf x0 y0 hw hh [], QT.leaf (x0 + hw) y0 hw hh [],
           QT.leaf x0 (y0 + hh) hw hh [], QT.leaf (x0 + hw) (y0 + hh) hw hh [])
        -- reinsert existing points, then clear leaf storage
        let cs := redist (fun j a b t => insertD cap fuel j a b t) x0 y0 w h pts cs0
        -- recurse into the matching child
        let ci := childIdx x0 y0 w h x y
        let r := insertD cap fuel i x y (childAt cs ci)
        let cs' := setChild cs ci r.1
        (QT.node x0 y0 w h [] cs'.1 cs'.2.1 cs'.2.2.1 cs'.2.2.2, r.2)
  | fuel, i, x, y, QT.node x0 y0 w h pts nw ne sw se =>
    if x < x0 ∨ y < y0 ∨ x0 + w ≤ x ∨ y0 + h ≤ y then
      (QT.node x0 y0 w h pts nw ne sw se, false)
    else
      match fuel with
      | 0 => (QT.node x0 y0 w h pts nw ne sw se, false)
      | fuel + 1 =>
        let ci := childIdx x0 y0 w h x y
        let r := insertD cap fuel i x y (childAt (nw, ne, sw, se) ci)
        let cs' := setChild (nw, ne, sw, se) ci r.1
        (QT.node x0 y0 w h pts cs'.1 cs'.2.1 cs'.2.2.1 cs'.2.2.2, r.2)

/-- `Quadtree.query` / `Quadtree._queryNode`: prune a subtree when the closest
point of its rectangle to the query centre is farther than `r`; an undivided
node contributes all of its stored indices, a divided node recurses into the
four children. -/
def queryNode : QT α → α → α → α → List ℕ
  | QT.leaf x0 y0 w h pts, cx, cy, r =>
    let nx := max x0 (min cx (x0 + w))
    let ny := max y0 (min cy (y0 + h))
    if (cx - nx) * (cx - nx) + (cy - ny) * (cy - ny) > r * r then []
    else pts.map (fun e => e.1)
  | QT.node x0 y0 w h _ nw ne sw se, cx, cy, r =>
    let nx := max x0 (min cx (x0 + w))
    let ny := max y0 (min cy (y0 + h))
    if (cx - nx) * (cx - nx) + (cy - ny) * (cy - ny) > r * r then []
    else
      queryNode nw cx cy r ++ queryNode ne cx cy r ++
        queryNode sw cx cy r ++ queryNode se cx cy r

/-- The build loop `for (let i=0;i<N;i++) qt.insert(i, px[i], py[i])`, also
recording each insert's boolean result. -/
def buildD (cap fuel : ℕ) : List (ℕ × α × α) → QT α → QT α × List Bool
  | [], t => (t, [])
  | (i, x, y) :: rest, t =>
    let r := insertD cap fuel i x y t
    let rec' := buildD cap fuel rest r.1
    (rec'.1, r.2 :: rec'.2)

/-- All stored points of the tree. -/
def entries : QT α → List (ℕ × α × α)
  | QT.leaf _ _ _ _ pts => pts
  | QT.node _ _ _ _ pts nw ne sw se =>
    pts ++ entries nw ++ entries ne ++ entries sw ++ entries se

/-- The point `(i, x, y)` is stored in some leaf of the tree, with every node
on the path (the leaf included) containing `(x, y)` in its half-open
rectangle. -/
def storedIn : QT α → ℕ → α → α → Prop
  | QT.leaf x0 y0 w h pts, i, x, y => (i, x, y) ∈ pts ∧ inRect x0 y0 w h x y
  | QT.node x0 y0 w h _ nw ne sw se, i, x, y =>
    inRect x0 y0 w h x y ∧
      (storedIn nw i x y ∨ storedIn ne i x y ∨ storedIn sw i x y ∨ storedIn se i x y)

/-- The capacity invariant of §8: an undivided node stores at most `cap`
points; a divided node's own storage is empty. -/
def invQT (cap : ℕ) : QT α → Prop
  | QT.leaf _ _ _ _ pts => pts.length ≤ cap
  | QT.node _ _ _ _ pts nw ne sw se =>
    pts = [] ∧ invQT cap nw ∧ invQT cap ne ∧ invQT cap sw ∧ invQT cap se

/-- Geometric well-formedness: every stored point lies in its node's half-open
rectangle (so reinsertion during subdivision cannot lose it). -/
def wfQT : QT α → Prop
  | QT.leaf x0 y0 w h pts => ∀ e ∈ pts, inRect x0 y0 w h e.2.1 e.2.2
  | QT.node x0 y0 w h pts nw ne sw se =>
    (∀ e ∈ pts, inRect x0 y0 w h e.2.1 e.2.2) ∧
      wfQT nw ∧ wfQT ne ∧ wfQT sw ∧ wfQT se

/-- `t'` refines `t`: wherever `t` is already divided, `t'` is divided the
same way (subdivision is one-way, no merging). -/
def dividedLe : QT α → QT α → Prop
  | QT.leaf _ _ _ _ _, _ => True
  | QT.node _ _ _ _ _ _ _ _ _, QT.leaf _ _ _ _ _ => False
  | QT.node _ _ _ _ _ a b c d, QT.node _ _ _ _ _ a' b' c' d' =>
    dividedLe a a' ∧ dividedLe b b' ∧ dividedLe c c' ∧ dividedLe d d'

omit [LinearOrderedField α] in
theorem dividedLe_refl (t : QT α) : dividedLe t t := by
  induction t with
  | leaf x y w h pts => trivial
  | node x y w h pts nw ne sw se hnw hne hsw hse => exact ⟨hnw, hne, hsw, hse⟩

theorem not_inRect_iff (x0 y0 w h x y : α) :
    (x < x0 ∨ y < y0 ∨ x0 + w ≤ x ∨ y0 + h ≤ y) ↔ ¬ inRect x0 y0 w h x y := by
  unfold inRect
  constructor
  · rintro (h | h | h | h) ⟨h1, h2, h3, h4⟩ <;> linarith
  · intro h
    by_contra hc
    push_neg at hc
    exact h ⟨hc.1, hc.2.1, hc.2.2.1, hc.2.2.2⟩

/-- Unfold lemma: inserting a point outside the node's rectangle fails and
leaves the tree unchanged. -/
theorem insertD_out (cap fuel i : ℕ) (x y : α) (t : QT α)
    (h : ¬ inRect (QT.rx t) (QT.ry t) (QT.rw t) (QT.rh t) x y) :
    insertD cap fuel i x y t = (t, false) := by
  cases t with
  | leaf x0 y0 w h' pts =>
    rw [insertD.eq_def]
    simp only []
    rw [if_pos ((not_inRect_iff x0 y0 w h' x y).mpr h)]
  | node x0 y0 w h' pts nw ne sw se =>
    rw [insertD.eq_def]
    simp only []
    rw [if_pos ((not_inRect_iff x0 y0 w h' x y).mpr h)]

/-- Unfold lemma: inserting an in-bounds point into an undivided node with
spare capacity appends it. -/
theorem insertD_leaf_append (cap fuel i : ℕ) (x y x0 y0 w h : α)
    (pts : List (ℕ × α × α)) (hin : inRect x0 y0 w h x y) (hlen : pts.length < cap) :
    insertD cap fuel i x y (QT.leaf x0 y0 w h pts) =
      (QT.leaf x0 y0 w h (pts ++ [(i, x, y)]), true) := by
  rw [insertD.eq_def]
  simp only []
  rw [if_neg (fun hc => (not_inRect_iff x0 y0 w h x y).mp hc hin), if_pos hlen]

/-- Unfold lemma: inserting an in-bounds point into a full undivided node with
no fuel left drops the point. -/
theorem insertD_leaf_stuck (cap i : ℕ) (x y x0 y0 w h : α)
    (pts : List (ℕ × α × α)) (hin : inRect x0 y0 w h x y) (hlen : ¬ pts.length < cap) :
    insertD cap 0 i x y (QT.leaf x0 y0 w h pts) = (QT.leaf x0 y0 w h pts, false) := by
  rw [insertD.eq_def]
  simp only []
  rw [if_neg (fun hc => (not_inRect_iff x0 y0 w h x y).mp hc hin), if_neg hlen]

/-- The four children created by `Quadtree.subdivide` after the stored points
have been reinserted (each child starts as an empty quadrant leaf). -/
def subdivCs (cap fuel : ℕ) (x0 y0 w h : α) (pts : List (ℕ × α × α)) :
    QT α × QT α × QT α × QT α :=
  redist (fun j a b t => insertD cap fuel j a b t) x0 y0 w h pts
    (QT.leaf x0 y0 (w / 2) (h / 2) [], QT.leaf (x0 + w / 2) y0 (w / 2) (h / 2) [],
     QT.leaf x0 (y0 + h / 2) (w / 2) (h / 2) [],
     QT.leaf (x0 + w / 2) (y0 + h / 2) (w / 2) (h / 2) [])

/-- Unfold lemma: inserting an in-bounds point into a full undivided node
subdivides it (four fresh quadrants, stored points reinserted, leaf storage
cleared) and recurses into the matching child. -/
theorem insertD_leaf_split (cap fuel i : ℕ) (x y x0 y0 w h : α)
    (pts : List (ℕ × α × α)) (hin : inRect x0 y0 w h x y) (hlen : ¬ pts.length < cap) :
    insertD cap (fuel + 1) i x y (QT.leaf x0 y0 w h pts) =
      (QT.node x0 y0 w h []
        (setChild (subdivCs cap fuel x0 y0 w h pts) (childIdx x0 y0 w h x y)
          (insertD cap fuel i x y
            (childAt (subdivCs cap fuel x0 y0 w h pts) (childIdx x0 y0 w h x y))).1).1
        (setChild (subdivCs cap fuel x0 y0 w h pts) (childIdx x0 y0 w h x y)
          (insertD cap fuel i x y
            (childAt (subdivCs cap fuel x0 y0 w h pts) (childIdx x0 y0 w h x y))).1).2.1
        (setChild (subdivCs cap fuel x0 y0 w h pts) (childIdx x0 y0 w h x y)
          (insertD cap fuel i x y
            (childAt (subdivCs cap fuel x0 y0 w h pts) (childIdx x0 y0 w h x y))).1).2.2.1
        (setChild (subdivCs cap fuel x0 y0 w h pts) (childIdx x0 y0 w h x y)
          (insertD cap fuel i x y
            (childAt (subdivCs cap fuel x0 y0 w h pts) (childIdx x0 y0 w h x y))).1).2.2.2,
       (insertD cap fuel i x y
         (childAt (subdivCs cap fuel x0 y0 w h pts) (childIdx x0 y0 w h x y))).2) := by
  rw [insertD.eq_def]
  simp only []
  rw [if_neg (fun hc => (not_inRect_iff x0 y0 w h x y).mp hc hin), if_neg hlen]
  rfl

/-- Unfold lemma: an in-bounds insert on a divided node with no fuel left
drops the point. -/
theorem insertD_node_stuck (cap i : ℕ) (x y x0 y0 w h : α)
    (pts : List (ℕ × α × α)) (nw ne sw se : QT α) (hin : inRect x0 y0 w h x y) :
    insertD cap 0 i x y (QT.node x0 y0 w h pts nw ne sw se) =
      (QT.node x0 y0 w h pts nw ne sw se, false) := by
  rw [insertD.eq_def]
  simp only []
  rw [if_neg (fun hc => (not_inRect_iff x0 y0 w h x y).mp hc hin)]

/-- Unfold lemma: an in-bounds insert on a divided node recurses into the
matching child. -/
theorem insertD_node_step (cap fuel i : ℕ) (x y x0 y0 w h : α)
    (pts : List (ℕ × α × α)) (nw ne sw se : QT α) (hin : inRect x0 y0 w h x y) :
    insertD cap (fuel + 1) i x y (QT.node x0 y0 w h pts nw ne sw se) =
      (let ci := childIdx x0 y0 w h x y
       let r := insertD cap fuel i x y (childAt (nw, ne, sw, se) ci)
       let cs' := setChild (nw, ne, sw, se) ci r.1
       (QT.node x0 y0 w h pts cs'.1 cs'.2.1 cs'.2.2.1 cs'.2.2.2, r.2)) := by
  rw [insertD.eq_def]
  simp only []
  rw [if_neg (fun hc => (not_inRect_iff x0 y0 w h x y).mp hc hin)]

theorem childIdx_lt_four (x0 y0 w h x y : α) : childIdx x0 y0 w h x y < 4 := by
  unfold childIdx
  split_ifs <;> norm_num

/-- A point in a node's half-open rectangle lies in the half-open rectangle of
the quadrant selected by `childIdx`. -/
theorem childIdx_quadrant (x0 y0 w h x y : α) (hin : inRect x0 y0 w h x y) :
    (childIdx x0 y0 w h x y = 0 ∧ inRect x0 y0 (w / 2) (h / 2) x y) ∨
    (childIdx x0 y0 w h x y = 1 ∧ inRect (x0 + w / 2) y0 (w / 2) (h / 2) x y) ∨
    (childIdx x0 y0 w h x y = 2 ∧ inRect x0 (y0 + h / 2) (w / 2) (h / 2) x y) ∨
    (childIdx x0 y0 w h x y = 3 ∧ inRect (x0 + w / 2) (y0 + h / 2) (w / 2) (h / 2) x y) := by
  obtain ⟨h1, h2, h3, h4⟩ := hin
  unfold childIdx inRect
  by_cases hy : y < y0 + h / 2 <;> by_cases hx : x < x0 + w / 2
  · refine Or.inl ?_
    rw [if_pos hy, if_pos hx]
    exact ⟨rfl, h1, h2, hx, hy⟩
  · refine Or.inr (Or.inl ?_)
    push_neg at hx
    rw [if_pos hy, if_neg (not_lt.mpr hx)]
    exact ⟨rfl, hx, h2, by linarith, hy⟩
  · refine Or.inr (Or.inr (Or.inl ?_))
    push_neg at hy
    rw [if_neg (not_lt.mpr hy), if_pos hx]
    exact ⟨rfl, h1, hy, hx, by linarith⟩
  · refine Or.inr (Or.inr (Or.inr ?_))
    push_neg at hx hy
    rw [if_neg (not_lt.mpr hy), if_neg (not_lt.mpr hx)]
    exact ⟨rfl, hx, hy, by linarith, by linarith⟩

/-- The stored points that the subdivision loop sends to quadrant `k`. -/
def quadFilter (x0 y0 w h : α) (l : List (ℕ × α × α)) (k : ℕ) : List (ℕ × α × α) :=
  l.filter (fun e => decide (childIdx x0 y0 w h e.2.1 e.2.2 = k))

theorem quadFilter_nil (x0 y0 w h : α) (k : ℕ) : quadFilter x0 y0 w h [] k = [] := rfl

theorem quadFilter_cons_self (x0 y0 w h : α) (e : ℕ × α × α) (l : List (ℕ × α × α))
    (k : ℕ) (hk : childIdx x0 y0 w h e.2.1 e.2.2 = k) :
    quadFilter x0 y0 w h (e :: l) k = e :: quadFilter x0 y0 w h l k := by
  simp [quadFilter, List.filter_cons, hk]

theorem quadFilter_cons_ne (x0 y0 w h : α) (e : ℕ × α × α) (l : List (ℕ × α × α))
    (k : ℕ) (hk : childIdx x0 y0 w h e.2.1 e.2.2 ≠ k) :
    quadFilter x0 y0 w h (e :: l) k = quadFilter x0 y0 w h l k := by
  simp [quadFilter, List.filter_cons, hk]

theorem quadFilter_length_le (x0 y0 w h : α) (l : List (ℕ × α × α)) (k : ℕ) :
    (quadFilter x0 y0 w h l k).length ≤ l.length :=
  List.length_filter_le _ l

theorem mem_quadFilter_iff (x0 y0 w h : α) (l : List (ℕ × α × α)) (k : ℕ)
    (e : ℕ × α × α) :
    e ∈ quadFilter x0 y0 w h l k ↔ e ∈ l ∧ childIdx x0 y0 w h e.2.1 e.2.2 = k := by
  simp [quadFilter, List.mem_filter]

/-- Redistribution partitions the stored points among the four quadrants. -/
theorem quadFilter_partition (x0 y0 w h : α) (l : List (ℕ × α × α)) :
    (quadFilter x0 y0 w h l 0 ++ quadFilter x0 y0 w h l 1 ++
      quadFilter x0 y0 w h l 2 ++ quadFilter x0 y0 w h l 3).Perm l := by
  induction l with
  | nil => simp [quadFilter_nil]
  | cons e rest ih =>
    have hlt : childIdx x0 y0 w h e.2.1 e.2.2 < 4 := childIdx_lt_four _ _ _ _ _ _
    set k := childIdx x0 y0 w h e.2.1 e.2.2 with hk
    interval_cases k
    · rw [quadFilter_cons_self _ _ _ _ _ _ 0 hk.symm,
        quadFilter_cons_ne _ _ _ _ _ _ 1 (by omega),
        quadFilter_cons_ne _ _ _ _ _ _ 2 (by omega),
        quadFilter_cons_ne _ _ _ _ _ _ 3 (by omega)]
      simpa using ih.cons e
    · rw [quadFilter_cons_self _ _ _ _ _ _ 1 hk.symm,
        quadFilter_cons_ne _ _ _ _ _ _ 0 (by omega),
        quadFilter_cons_ne _ _ _ _ _ _ 2 (by omega),
        quadFilter_cons_ne _ _ _ _ _ _ 3 (by omega)]
      have h1 : (quadFilter x0 y0 w h rest 0 ++ (e :: quadFilter x0 y0 w h rest 1)).Perm
          (e :: (quadFilter x0 y0 w h rest 0 ++ quadFilter x0 y0 w h rest 1)) :=
        List.perm_middle
      have h2 := (h1.append_right (quadFilter x0 y0 w h rest 2)).append_right
        (quadFilter x0 y0 w h rest 3)
      simp only [List.cons_append] at h2
      exact h2.trans (ih.cons e)
    · rw [quadFilter_cons_self _ _ _ _ _ _ 2 hk.symm,
        quadFilter_cons_ne _ _ _ _ _ _ 0 (by omega),
        quadFilter_cons_ne _ _ _ _ _ _ 1 (by omega),
        quadFilter_cons_ne _ _ _ _ _ _ 3 (by omega)]
      have h1 : ((quadFilter x0 y0 w h rest 0 ++ quadFilter x0 y0 w h rest 1) ++
          (e :: quadFilter x0 y0 w h rest 2)).Perm
          (e :: ((quadFilter x0 y0 w h rest 0 ++ quadFilter x0 y0 w h rest 1) ++
            quadFilter x0 y0 w h rest 2)) :=
        List.perm_middle
      have h2 := h1.append_right (quadFilter x0 y0 w h rest 3)
      simp only [List.cons_append] at h2
      exact h2.trans (ih.cons e)
    · rw [quadFilter_cons_self _ _ _ _ _ _ 3 hk.symm,
        quadFilter_cons_ne _ _ _ _ _ _ 0 (by omega),
        quadFilter_cons_ne _ _ _ _ _ _ 1 (by omega),
        quadFilter_cons_ne _ _ _ _ _ _ 2 (by omega)]
      exact List.perm_middle.trans (ih.cons e)

/-- During subdivision the four fresh quadrant children only ever receive
direct appends: redistributing `l` well-capacitated points sends each to the
quadrant selected by `childIdx`. -/
theorem redist_leaves (cap fuel : ℕ) (x0 y0 w h : α) :
    ∀ (l p0 p1 p2 p3 : List (ℕ × α × α)),
      (∀ e ∈ l, inRect x0 y0 w h e.2.1 e.2.2) →
      p0.length + l.length ≤ cap → p1.length + l.length ≤ cap →
      p2.length + l.length ≤ cap → p3.length + l.length ≤ cap →
      redist (fun j a b t => insertD cap fuel j a b t) x0 y0 w h l
        (QT.leaf x0 y0 (w / 2) (h / 2) p0, QT.leaf (x0 + w / 2) y0 (w / 2) (h / 2) p1,
         QT.leaf x0 (y0 + h / 2) (w / 2) (h / 2) p2,
         QT.leaf (x0 + w / 2) (y0 + h / 2) (w / 2) (h / 2) p3) =
        (QT.leaf x0 y0 (w / 2) (h / 2) (p0 ++ quadFilter x0 y0 w h l 0),
         QT.leaf (x0 + w / 2) y0 (w / 2) (h / 2) (p1 ++ quadFilter x0 y0 w h l 1),
         QT.leaf x0 (y0 + h / 2) (w / 2) (h / 2) (p2 ++ quadFilter x0 y0 w h l 2),
         QT.leaf (x0 + w / 2) (y0 + h / 2) (w / 2) (h / 2) (p3 ++ quadFilter x0 y0 w h l 3)) := by
  intro l
  induction l with
  | nil => intro p0 p1 p2 p3 _ _ _ _ _; simp [redist, quadFilter_nil]
  | cons e rest ih =>
    intro p0 p1 p2 p3 hin h0 h1 h2 h3
    obtain ⟨j, a, b⟩ := e
    have hine : inRect x0 y0 w h a b := hin (j, a, b) (List.mem_cons_self _ _)
    have hrest : ∀ e ∈ rest, inRect x0 y0 w h e.2.1 e.2.2 :=
      fun e he => hin e (List.mem_cons_of_mem _ he)
    simp only [List.length_cons] at h0 h1 h2 h3
    rcases childIdx_quadrant x0 y0 w h a b hine with
      ⟨hci, hq⟩ | ⟨hci, hq⟩ | ⟨hci, hq⟩ | ⟨hci, hq⟩
    all_goals (
      simp only [redist]
      rw [show childIdx x0 y0 w h (j, a, b).2.1 (j, a, b).2.2 = _ from hci]
      simp only [childAt, setChild]
      rw [insertD_leaf_append cap fuel j a b _ _ _ _ _ hq (by omega)])
    · rw [ih (p0 ++ [(j, a, b)]) p1 p2 p3 hrest (by simp; omega) (by omega) (by omega)
        (by omega)]
      rw [quadFilter_cons_self _ _ _ _ _ _ 0 hci,
        quadFilter_cons_ne _ _ _ _ _ _ 1 (by simp [hci]),
        quadFilter_cons_ne _ _ _ _ _ _ 2 (by simp [hci]),
        quadFilter_cons_ne _ _ _ _ _ _ 3 (by simp [hci])]
      simp
    · rw [ih p0 (p1 ++ [(j, a, b)]) p2 p3 hrest (by omega) (by simp; omega) (by omega)
        (by omega)]
      rw [quadFilter_cons_self _ _ _ _ _ _ 1 hci,
        quadFilter_cons_ne _ _ _ _ _ _ 0 (by simp [hci]),
        quadFilter_cons_ne _ _ _ _ _ _ 2 (by simp [hci]),
        quadFilter_cons_ne _ _ _ _ _ _ 3 (by simp [hci])]
      simp
    · rw [ih p0 p1 (p2 ++ [(j, a, b)]) p3 hrest (by omega) (by omega) (by simp; omega)
        (by omega)]
      rw [quadFilter_cons_self _ _ _ _ _ _ 2 hci,
        quadFilter_cons_ne _ _ _ _ _ _ 0 (by simp [hci]),
        quadFilter_cons_ne _ _ _ _ _ _ 1 (by simp [hci]),
        quadFilter_cons_ne _ _ _ _ _ _ 3 (by simp [hci])]
      simp
    · rw [ih p0 p1 p2 (p3 ++ [(j, a, b)]) hrest (by omega) (by omega) (by omega)
        (by simp; omega)]
      rw [quadFilter_cons_self _ _ _ _ _ _ 3 hci,
        quadFilter_cons_ne _ _ _ _ _ _ 0 (by simp [hci]),
        quadFilter_cons_ne _ _ _ _ _ _ 1 (by simp [hci]),
        quadFilter_cons_ne _ _ _ _ _ _ 2 (by simp [hci])]
      simp

theorem inQuad0 (x0 y0 w h a b : α) (hin : inRect x0 y0 w h a b)
    (hk : childIdx x0 y0 w h a b = 0) : inRect x0 y0 (w / 2) (h / 2) a b := by
  rcases childIdx_quadrant x0 y0 w h a b hin with ⟨hc, hq⟩ | ⟨hc, hq⟩ | ⟨hc, hq⟩ | ⟨hc, hq⟩ <;>
    first | exact hq | (rw [hk] at hc; omega)

theorem inQuad1 (x0 y0 w h a b : α) (hin : inRect x0 y0 w h a b)
    (hk : childIdx x0 y0 w h a b = 1) : inRect (x0 + w / 2) y0 (w / 2) (h / 2) a b := by
  rcases childIdx_quadrant x0 y0 w h a b hin with ⟨hc, hq⟩ | ⟨hc, hq⟩ | ⟨hc, hq⟩ | ⟨hc, hq⟩ <;>
    first | exact hq | (rw [hk] at hc; omega)

theorem inQuad2 (x0 y0 w h a b : α) (hin : inRect x0 y0 w h a b)
    (hk : childIdx x0 y0 w h a b = 2) : inRect x0 (y0 + h / 2) (w / 2) (h / 2) a b := by
  rcases childIdx_quadrant x0 y0 w h a b hin with ⟨hc, hq⟩ | ⟨hc, hq⟩ | ⟨hc, hq⟩ | ⟨hc, hq⟩ <;>
    first | exact hq | (rw [hk] at hc; omega)

theorem inQuad3 (x0 y0 w h a b : α) (hin : inRect x0 y0 w h a b)
    (hk : childIdx x0 y0 w h a b = 3) : inRect (x0 + w / 2) (y0 + h / 2) (w / 2) (h / 2) a b := by
  rcases childIdx_quadrant x0 y0 w h a b hin with ⟨hc, hq⟩ | ⟨hc, hq⟩ | ⟨hc, hq⟩ | ⟨hc, hq⟩ <;>
    first | exact hq | (rw [hk] at hc; omega)

/-- After subdivision (with capacity respected and all stored points inside
the node), the children are the four quadrant leaves and each stored point
sits in the quadrant selected by `childIdx`. -/
theorem subdivCs_eq (cap fuel : ℕ) (x0 y0 w h : α) (pts : List (ℕ × α × α))
    (hwf : ∀ e ∈ pts, inRect x0 y0 w h e.2.1 e.2.2) (hlen : pts.length ≤ cap) :
    subdivCs cap fuel x0 y0 w h pts =
      (QT.leaf x0 y0 (w / 2) (h / 2) (quadFilter x0 y0 w h pts 0),
       QT.leaf (x0 + w / 2) y0 (w / 2) (h / 2) (quadFilter x0 y0 w h pts 1),
       QT.leaf x0 (y0 + h / 2) (w / 2) (h / 2) (quadFilter x0 y0 w h pts 2),
       QT.leaf (x0 + w / 2) (y0 + h / 2) (w / 2) (h / 2) (quadFilter x0 y0 w h pts 3)) := by
  unfold subdivCs
  rw [redist_leaves cap fuel x0 y0 w h pts [] [] [] [] hwf (by simpa using hlen)
    (by simpa using hlen) (by simpa using hlen) (by simpa using hlen)]
  simp

/-- Combined preservation lemma for `Quadtree.insert`: one insert preserves
the capacity invariant, geometric well-formedness and subdivision, evolves the
multiset of stored points by at most the new point (added exactly when the
insert reports success), stores the new point on success, and never loses a
previously stored point. -/
theorem insertD_main (cap : ℕ) :
    ∀ (fuel i : ℕ) (x y : α) (t : QT α), invQT cap t → wfQT t →
      invQT cap (insertD cap fuel i x y t).1 ∧
      wfQT (insertD cap fuel i x y t).1 ∧
      (entries (insertD cap fuel i x y t).1).Perm
        (if (insertD cap fuel i x y t).2 = true then (i, x, y) :: entries t
         else entries t) ∧
      ((insertD cap fuel i x y t).2 = true → storedIn (insertD cap fuel i x y t).1 i x y) ∧
      (∀ j a b, storedIn t j a b → storedIn (insertD cap fuel i x y t).1 j a b) ∧
      dividedLe t (insertD cap fuel i x y t).1 := by
  intro fuel
  induction fuel with
  | zero =>
    intro i x y t hinv hwf
    cases t with
    | leaf x0 y0 w h pts =>
      by_cases hin : inRect x0 y0 w h x y
      · by_cases hlen : pts.length < cap
        · rw [insertD_leaf_append cap 0 i x y x0 y0 w h pts hin hlen]
          refine ⟨?_, ?_, ?_, ?_, ?_, ?_⟩
          · show (pts ++ [(i, x, y)]).length ≤ cap
            simp only [List.length_append, List.length_singleton]
            omega
          · intro e he
            rcases List.mem_append.mp he with hm | hm
            · exact hwf e hm
            · rw [List.mem_singleton.mp hm]; exact hin
          · simp [entries]
          · intro _
            exact ⟨List.mem_append_right _ (List.mem_singleton_self _), hin⟩
          · intro j a b hs
            exact ⟨List.mem_append_left _ hs.1, hs.2⟩
          · trivial
        · rw [insertD_leaf_stuck cap i x y x0 y0 w h pts hin hlen]
          exact ⟨hinv, hwf, by simp, by simp, fun j a b hs => hs, dividedLe_refl _⟩
      · rw [insertD_out cap 0 i x y _ (by simpa [QT.rx, QT.ry, QT.rw, QT.rh] using hin)]
        exact ⟨hinv, hwf, by simp, by simp, fun j a b hs => hs, dividedLe_refl _⟩
    | node x0 y0 w h pts nw ne sw se =>
      by_cases hin : inRect x0 y0 w h x y
      · rw [insertD_node_stuck cap i x y x0 y0 w h pts nw ne sw se hin]
        exact ⟨hinv, hwf, by simp, by simp, fun j a b hs => hs, dividedLe_refl _⟩
      · rw [insertD_out cap 0 i x y _ (by simpa [QT.rx, QT.ry, QT.rw, QT.rh] using hin)]
        exact ⟨hinv, hwf, by simp, by simp, fun j a b hs => hs, dividedLe_refl _⟩
  | succ fuel ih =>
    intro i x y t hinv hwf
    cases t with
    | leaf x0 y0 w h pts =>
      by_cases hin : inRect x0 y0 w h x y
      · by_cases hlen : pts.length < cap
        · rw [insertD_leaf_append cap (fuel + 1) i x y x0 y0 w h pts hin hlen]
          refine ⟨?_, ?_, ?_, ?_, ?_, ?_⟩
          · show (pts ++ [(i, x, y)]).length ≤ cap
            simp only [List.length_append, List.length_singleton]
            omega
          · intro e he
            rcases List.mem_append.mp he with hm | hm
            · exact hwf e hm
            · rw [List.mem_singleton.mp hm]; exact hin
          · simp [entries]
          · intro _
            exact ⟨List.mem_append_right _ (List.mem_singleton_self _), hin⟩
          · intro j a b hs
            exact ⟨List.mem_append_left _ hs.1, hs.2⟩
          · trivial
        · have hcap : pts.length ≤ cap := hinv
          have hwf' : ∀ e ∈ pts, inRect x0 y0 w h e.2.1 e.2.2 := hwf
          rw [insertD_leaf_split cap fuel i x y x0 y0 w h pts hin hlen,
            subdivCs_eq cap fuel x0 y0 w h pts hwf' hcap]
          have hq0 : ∀ e ∈ quadFilter x0 y0 w h pts 0,
              inRect x0 y0 (w / 2) (h / 2) e.2.1 e.2.2 := by
            intro e he
            obtain ⟨hm, hc⟩ := (mem_quadFilter_iff x0 y0 w h pts 0 e).mp he
            exact inQuad0 x0 y0 w h e.2.1 e.2.2 (hwf' e hm) hc
          have hq1 : ∀ e ∈ quadFilter x0 y0 w h pts 1,
              inRect (x0 + w / 2) y0 (w / 2) (h / 2) e.2.1 e.2.2 := by
            intro e he
            obtain ⟨hm, hc⟩ := (mem_quadFilter_iff x0 y0 w h pts 1 e).mp he
            exact inQuad1 x0 y0 w h e.2.1 e.2.2 (hwf' e hm) hc
          have hq2 : ∀ e ∈ quadFilter x0 y0 w h pts 2,
              inRect x0 (y0 + h / 2) (w / 2) (h / 2) e.2.1 e.2.2 := by
            intro e he
            obtain ⟨hm, hc⟩ := (mem_quadFilter_iff x0 y0 w h pts 2 e).mp he
            exact inQuad2 x0 y0 w h e.2.1 e.2.2 (hwf' e hm) hc
          have hq3 : ∀ e ∈ quadFilter x0 y0 w h pts 3,
              inRect (x0 + w / 2) (y0 + h / 2) (w / 2) (h / 2) e.2.1 e.2.2 := by
            intro e he
            obtain ⟨hm, hc⟩ := (mem_quadFilter_iff x0 y0 w h pts 3 e).mp he
            exact inQuad3 x0 y0 w h e.2.1 e.2.2 (hwf' e hm) hc
          have hl0 : (quadFilter x0 y0 w h pts 0).length ≤ cap :=
            le_trans (quadFilter_length_le _ _ _ _ _ _) hcap
          have hl1 : (quadFilter x0 y0 w h pts 1).length ≤ cap :=
            le_trans (quadFilter_length_le _ _ _ _ _ _) hcap
          have hl2 : (quadFilter x0 y0 w h pts 2).length ≤ cap :=
            le_trans (quadFilter_length_le _ _ _ _ _ _) hcap
          have hl3 : (quadFilter x0 y0 w h pts 3).length ≤ cap :=
            le_trans (quadFilter_length_le _ _ _ _ _ _) hcap
          have hpart := quadFilter_partition x0 y0 w h pts
          rcases childIdx_quadrant x0 y0 w h x y hin with
            ⟨hci, hq⟩ | ⟨hci, hq⟩ | ⟨hci, hq⟩ | ⟨hci, hq⟩ <;> rw [hci] <;>
            simp only [childAt, setChild]
          · obtain ⟨ihInv, ihWf, ihPerm, ihEst, ihPres, _⟩ :=
              ih i x y (QT.leaf x0 y0 (w / 2) (h / 2) (quadFilter x0 y0 w h pts 0)) hl0 hq0
            refine ⟨⟨rfl, ihInv, hl1, hl2, hl3⟩, ⟨by simp, ihWf, hq1, hq2, hq3⟩, ?_, ?_, ?_, trivial⟩
            · refine List.perm_iff_count.mpr fun z => ?_
              have h1 := ihPerm.count_eq z
              have h2 := hpart.count_eq z
              rcases Bool.eq_false_or_eq_true ((insertD cap fuel i x y
                  (QT.leaf x0 y0 (w / 2) (h / 2) (quadFilter x0 y0 w h pts 0))).2) with hb | hb <;>
                simp only [hb] at h1 ⊢ <;> by_cases hz : z = (i, x, y) <;>
                simp only [hz, entries, if_true, if_false, Bool.false_eq_true,
                  List.count_append, List.count_cons, List.count_nil, if_pos, if_neg,
                  List.nil_append, ite_true, ite_false, reduceIte] at h1 h2 ⊢ <;>
                omega
            · intro hb
              exact ⟨hin, Or.inl (ihEst hb)⟩
            · intro j a b hs
              obtain ⟨hm, hrect⟩ := hs
              rcases childIdx_quadrant x0 y0 w h a b hrect with
                ⟨hcj, hqj⟩ | ⟨hcj, hqj⟩ | ⟨hcj, hqj⟩ | ⟨hcj, hqj⟩
              · exact ⟨hrect, Or.inl (ihPres j a b
                  ⟨(mem_quadFilter_iff x0 y0 w h pts 0 _).mpr ⟨hm, hcj⟩, hqj⟩)⟩
              · exact ⟨hrect, Or.inr (Or.inl
                  ⟨(mem_quadFilter_iff x0 y0 w h pts 1 _).mpr ⟨hm, hcj⟩, hqj⟩)⟩
              · exact ⟨hrect, Or.inr (Or.inr (Or.inl
                  ⟨(mem_quadFilter_iff x0 y0 w h pts 2 _).mpr ⟨hm, hcj⟩, hqj⟩))⟩
              · exact ⟨hrect, Or.inr (Or.inr (Or.inr
                  ⟨(mem_quadFilter_iff x0 y0 w h pts 3 _).mpr ⟨hm, hcj⟩, hqj⟩))⟩
          · obtain ⟨ihInv, ihWf, ihPerm, ihEst, ihPres, _⟩ :=
              ih i x y (QT.leaf (x0 + w / 2) y0 (w / 2) (h / 2) (quadFilter x0 y0 w h pts 1)) hl1 hq1
            refine ⟨⟨rfl, hl0, ihInv, hl2, hl3⟩, ⟨by simp, hq0, ihWf, hq2, hq3⟩, ?_, ?_, ?_, trivial⟩
            · refine List.perm_iff_count.mpr fun z => ?_
              have h1 := ihPerm.count_eq z
              have h2 := hpart.count_eq z
              rcases Bool.eq_false_or_eq_true ((insertD cap fuel i x y
                  (QT.leaf (x0 + w / 2) y0 (w / 2) (h / 2) (quadFilter x0 y0 w h pts 1))).2) with hb | hb <;>
                simp only [hb] at h1 ⊢ <;> by_cases hz : z = (i, x, y) <;>
                simp only [hz, entries, if_true, if_false, Bool.false_eq_true,
                  List.count_append, List.count_cons, List.count_nil, if_pos, if_neg,
                  List.nil_append, ite_true, ite_false, reduceIte] at h1 h2 ⊢ <;>
                omega
            · intro hb
              exact ⟨hin, Or.inr (Or.inl (ihEst hb))⟩
            · intro j a b hs
              obtain ⟨hm, hrect⟩ := hs
              rcases childIdx_quadrant x0 y0 w h a b hrect with
                ⟨hcj, hqj⟩ | ⟨hcj, hqj⟩ | ⟨hcj, hqj⟩ | ⟨hcj, hqj⟩
              · exact ⟨hrect, Or.inl
                  ⟨(mem_quadFilter_iff x0 y0 w h pts 0 _).mpr ⟨hm, hcj⟩, hqj⟩⟩
              · exact ⟨hrect, Or.inr (Or.inl (ihPres j a b
                  ⟨(mem_quadFilter_iff x0 y0 w h pts 1 _).mpr ⟨hm, hcj⟩, hqj⟩))⟩
              · exact ⟨hrect, Or.inr (Or.inr (Or.inl
                  ⟨(mem_quadFilter_iff x0 y0 w h pts 2 _).mpr ⟨hm, hcj⟩, hqj⟩))⟩
              · exact ⟨hrect, Or.inr (Or.inr (Or.inr
                  ⟨(mem_quadFilter_iff x0 y0 w h pts 3 _).mpr ⟨hm, hcj⟩, hqj⟩))⟩
          · obtain ⟨ihInv, ihWf, ihPerm, ihEst, ihPres, _⟩ :=
              ih i x y (QT.leaf x0 (y0 + h / 2) (w / 2) (h / 2) (quadFilter x0 y0 w h pts 2)) hl2 hq2
            refine ⟨⟨rfl, hl0, hl1, ihInv, hl3⟩, ⟨by simp, hq0, hq1, ihWf, hq3⟩, ?_, ?_, ?_, trivial⟩
            · refine List.perm_iff_count.mpr fun z => ?_
              have h1 := ihPerm.count_eq z
              have h2 := hpart.count_eq z
              rcases Bool.eq_false_or_eq_true ((insertD cap fuel i x y
                  (QT.leaf x0 (y0 + h / 2) (w / 2) (h / 2) (quadFilter x0 y0 w h pts 2))).2) with hb | hb <;>
                simp only [hb] at h1 ⊢ <;> by_cases hz : z = (i, x, y) <;>
                simp only [hz, entries, if_true, if_false, Bool.false_eq_true,
                  List.count_append, List.count_cons, List.count_nil, if_pos, if_neg,
                  List.nil_append, ite_true, ite_false, reduceIte] at h1 h2 ⊢ <;>
                omega
            · intro hb
              exact ⟨hin, Or.inr (Or.inr (Or.inl (ihEst hb)))⟩
            · intro j a b hs
              obtain ⟨hm, hrect⟩ := hs
              rcases childIdx_quadrant x0 y0 w h a b hrect with
                ⟨hcj, hqj⟩ | ⟨hcj, hqj⟩ | ⟨hcj, hqj⟩ | ⟨hcj, hqj⟩
              · exact ⟨hrect, Or.inl
                  ⟨(mem_quadFilter_iff x0 y0 w h pts 0 _).mpr ⟨hm, hcj⟩, hqj⟩⟩
              · exact ⟨hrect, Or.inr (Or.inl
                  ⟨(mem_quadFilter_iff x0 y0 w h pts 1 _).mpr ⟨hm, hcj⟩, hqj⟩)⟩
              · exact ⟨hrect, Or.inr (Or.inr (Or.inl (ihPres j a b
                  ⟨(mem_quadFilter_iff x0 y0 w h pts 2 _).mpr ⟨hm, hcj⟩, hqj⟩)))⟩
              · exact ⟨hrect, Or.inr (Or.inr (Or.inr
                  ⟨(mem_quadFilter_iff x0 y0 w h pts 3 _).mpr ⟨hm, hcj⟩, hqj⟩))⟩
          · obtain ⟨ihInv, ihWf, ihPerm, ihEst, ihPres, _⟩ :=
              ih i x y (QT.leaf (x0 + w / 2) (y0 + h / 2) (w / 2) (h / 2)
                (quadFilter x0 y0 w h pts 3)) hl3 hq3
            refine ⟨⟨rfl, hl0, hl1, hl2, ihInv⟩, ⟨by simp, hq0, hq1, hq2, ihWf⟩, ?_, ?_, ?_, trivial⟩
            · refine List.perm_iff_count.mpr fun z => ?_
              have h1 := ihPerm.count_eq z
              have h2 := hpart.count_eq z
              rcases Bool.eq_false_or_eq_true ((insertD cap fuel i x y
                  (QT.leaf (x0 + w / 2) (y0 + h / 2) (w / 2) (h / 2)
                    (quadFilter x0 y0 w h pts 3))).2) with hb | hb <;>
                simp only [hb] at h1 ⊢ <;> by_cases hz : z = (i, x, y) <;>
                simp only [hz, entries, if_true, if_false, Bool.false_eq_true,
                  List.count_append, List.count_cons, List.count_nil, if_pos, if_neg,
                  List.nil_append, ite_true, ite_false, reduceIte] at h1 h2 ⊢ <;>
                omega
            · intro hb
              exact ⟨hin, Or.inr (Or.inr (Or.inr (ihEst hb)))⟩
            · intro j a b hs
              obtain ⟨hm, hrect⟩ := hs
              rcases childIdx_quadrant x0 y0 w h a b hrect with
                ⟨hcj, hqj⟩ | ⟨hcj, hqj⟩ | ⟨hcj, hqj⟩ | ⟨hcj, hqj⟩
              · exact ⟨hrect, Or.inl
                  ⟨(mem_quadFilter_iff x0 y0 w h pts 0 _).mpr ⟨hm, hcj⟩, hqj⟩⟩
              · exact ⟨hrect, Or.inr (Or.inl
                  ⟨(mem_quadFilter_iff x0 y0 w h pts 1 _).mpr ⟨hm, hcj⟩, hqj⟩)⟩
              · exact ⟨hrect, Or.inr (Or.inr (Or.inl
                  ⟨(mem_quadFilter_iff x0 y0 w h pts 2 _).mpr ⟨hm, hcj⟩, hqj⟩))⟩
              · exact ⟨hrect, Or.inr (Or.inr (Or.inr (ihPres j a b
                  ⟨(mem_quadFilter_iff x0 y0 w h pts 3 _).mpr ⟨hm, hcj⟩, hqj⟩)))⟩
      · rw [insertD_out cap (fuel + 1) i x y _ (by simpa [QT.rx, QT.ry, QT.rw, QT.rh] using hin)]
        exact ⟨hinv, hwf, by simp, by simp, fun j a b hs => hs, dividedLe_refl _⟩
    | node x0 y0 w h pts nw ne sw se =>
      by_cases hin : inRect x0 y0 w h x y
      · obtain ⟨hpts, hinw, hine, hisw, hise⟩ := hinv
        obtain ⟨hwpts, hwnw, hwne, hwsw, hwse⟩ := hwf
        rw [insertD_node_step cap fuel i x y x0 y0 w h pts nw ne sw se hin]
        rcases childIdx_quadrant x0 y0 w h x y hin with
          ⟨hci, hq⟩ | ⟨hci, hq⟩ | ⟨hci, hq⟩ | ⟨hci, hq⟩ <;> rw [hci] <;>
          simp only [childAt, setChild]
        · obtain ⟨ihInv, ihWf, ihPerm, ihEst, ihPres, ihDiv⟩ := ih i x y nw hinw hwnw
          refine ⟨⟨hpts, ihInv, hine, hisw, hise⟩, ⟨hwpts, ihWf, hwne, hwsw, hwse⟩,
            ?_, ?_, ?_, ?_⟩
          · refine List.perm_iff_count.mpr fun z => ?_
            have h1 := ihPerm.count_eq z
            rcases Bool.eq_false_or_eq_true ((insertD cap fuel i x y nw).2) with hb | hb <;>
              simp only [hb] at h1 ⊢ <;> by_cases hz : z = (i, x, y) <;>
              simp only [hz, entries, if_true, if_false, Bool.false_eq_true,
                List.count_append, List.count_cons, List.count_nil, if_pos, if_neg,
                List.nil_append, ite_true, ite_false, reduceIte] at h1 ⊢ <;>
              omega
          · intro hb
            exact ⟨hin, Or.inl (ihEst hb)⟩
          · intro j a b hs
            obtain ⟨hrect, hsub⟩ := hs
            rcases hsub with hsub | hsub | hsub | hsub
            · exact ⟨hrect, Or.inl (ihPres j a b hsub)⟩
            · exact ⟨hrect, Or.inr (Or.inl hsub)⟩
            · exact ⟨hrect, Or.inr (Or.inr (Or.inl hsub))⟩
            · exact ⟨hrect, Or.inr (Or.inr (Or.inr hsub))⟩
          · exact ⟨ihDiv, dividedLe_refl ne, dividedLe_refl sw, dividedLe_refl se⟩
        · obtain ⟨ihInv, ihWf, ihPerm, ihEst, ihPres, ihDiv⟩ := ih i x y ne hine hwne
          refine ⟨⟨hpts, hinw, ihInv, hisw, hise⟩, ⟨hwpts, hwnw, ihWf, hwsw, hwse⟩,
            ?_, ?_, ?_, ?_⟩
          · refine List.perm_iff_count.mpr fun z => ?_
            have h1 := ihPerm.count_eq z
            rcases Bool.eq_false_or_eq_true ((insertD cap fuel i x y ne).2) with hb | hb <;>
              simp only [hb] at h1 ⊢ <;> by_cases hz : z = (i, x, y) <;>
              simp only [hz, entries, if_true, if_false, Bool.false_eq_true,
                List.count_append, List.count_cons, List.count_nil, if_pos, if_neg,
                List.nil_append, ite_true, ite_false, reduceIte] at h1 ⊢ <;>
              omega
          · intro hb
            exact ⟨hin, Or.inr (Or.inl (ihEst hb))⟩
          · intro j a b hs
            obtain ⟨hrect, hsub⟩ := hs
            rcases hsub with hsub | hsub | hsub | hsub
            · exact ⟨hrect, Or.inl hsub⟩
            · exact ⟨hrect, Or.inr (Or.inl (ihPres j a b hsub))⟩
            · exact ⟨hrect, Or.inr (Or.inr (Or.inl hsub))⟩
            · exact ⟨hrect, Or.inr (Or.inr (Or.inr hsub))⟩
          · exact ⟨dividedLe_refl nw, ihDiv, dividedLe_refl sw, dividedLe_refl se⟩
        · obtain ⟨ihInv, ihWf, ihPerm, ihEst, ihPres, ihDiv⟩ := ih i x y sw hisw hwsw
          refine ⟨⟨hpts, hinw, hine, ihInv, hise⟩, ⟨hwpts, hwnw, hwne, ihWf, hwse⟩,
            ?_, ?_, ?_, ?_⟩
          · refine List.perm_iff_count.mpr fun z => ?_
            have h1 := ihPerm.count_eq z
            rcases Bool.eq_false_or_eq_true ((insertD cap fuel i x y sw).2) with hb | hb <;>
              simp only [hb] at h1 ⊢ <;> by_cases hz : z = (i, x, y) <;>
              simp only [hz, entries, if_true, if_false, Bool.false_eq_true,
                List.count_append, List.count_cons, List.count_nil, if_pos, if_neg,
                List.nil_append, ite_true, ite_false, reduceIte] at h1 ⊢ <;>
              omega
          · intro hb
            exact ⟨hin, Or.inr (Or.inr (Or.inl (ihEst hb)))⟩
          · intro j a b hs
            obtain ⟨hrect, hsub⟩ := hs
            rcases hsub with hsub | hsub | hsub | hsub
            · exact ⟨hrect, Or.inl hsub⟩
            · exact ⟨hrect, Or.inr (Or.inl hsub)⟩
            · exact ⟨hrect, Or.inr (Or.inr (Or.inl (ihPres j a b hsub)))⟩
            · exact ⟨hrect, Or.inr (Or.inr (Or.inr hsub))⟩
          · exact ⟨dividedLe_refl nw, dividedLe_refl ne, ihDiv, dividedLe_refl se⟩
        · obtain ⟨ihInv, ihWf, ihPerm, ihEst, ihPres, ihDiv⟩ := ih i x y se hise hwse
          refine ⟨⟨hpts, hinw, hine, hisw, ihInv⟩, ⟨hwpts, hwnw, hwne, hwsw, ihWf⟩,
            ?_, ?_, ?_, ?_⟩
          · refine List.perm_iff_count.mpr fun z => ?_
            have h1 := ihPerm.count_eq z
            rcases Bool.eq_false_or_eq_true ((insertD cap fuel i x y se).2) with hb | hb <;>
              simp only [hb] at h1 ⊢ <;> by_cases hz : z = (i, x, y) <;>
              simp only [hz, entries, if_true, if_false, Bool.false_eq_true,
                List.count_append, List.count_cons, List.count_nil, if_pos, if_neg,
                List.nil_append, ite_true, ite_false, reduceIte] at h1 ⊢ <;>
              omega
          · intro hb
            exact ⟨hin, Or.inr (Or.inr (Or.inr (ihEst hb)))⟩
          · intro j a b hs
            obtain ⟨hrect, hsub⟩ := hs
            rcases hsub with hsub | hsub | hsub | hsub
            · exact ⟨hrect, Or.inl hsub⟩
            · exact ⟨hrect, Or.inr (Or.inl hsub)⟩
            · exact ⟨hrect, Or.inr (Or.inr (Or.inl hsub))⟩
            · exact ⟨hrect, Or.inr (Or.inr (Or.inr (ihPres j a b hsub)))⟩
          · exact ⟨dividedLe_refl nw, dividedLe_refl ne, dividedLe_refl sw, ihDiv⟩
      · rw [insertD_out cap (fuel + 1) i x y _ (by simpa [QT.rx, QT.ry, QT.rw, QT.rh] using hin)]
        exact ⟨hinv, hwf, by simp, by simp, fun j a b hs => hs, dividedLe_refl _⟩

/-- Unfold lemma for `query` at an undivided node. -/
theorem queryNode_leaf (x0 y0 w h cx cy r : α) (pts : List (ℕ × α × α)) :
    queryNode (QT.leaf x0 y0 w h pts) cx cy r =
      if (cx - max x0 (min cx (x0 + w))) * (cx - max x0 (min cx (x0 + w))) +
          (cy - max y0 (min cy (y0 + h))) * (cy - max y0 (min cy (y0 + h))) > r * r then []
      else pts.map (fun e => e.1) := rfl

/-- Unfold lemma for `query` at a divided node. -/
theorem queryNode_node (x0 y0 w h cx cy r : α) (pts : List (ℕ × α × α))
    (nw ne sw se : QT α) :
    queryNode (QT.node x0 y0 w h pts nw ne sw se) cx cy r =
      if (cx - max x0 (min cx (x0 + w))) * (cx - max x0 (min cx (x0 + w))) +
          (cy - max y0 (min cy (y0 + h))) * (cy - max y0 (min cy (y0 + h))) > r * r then []
      else
        queryNode nw cx cy r ++ queryNode ne cx cy r ++
          queryNode sw cx cy r ++ queryNode se cx cy r := rfl

/-- Clamping the query centre onto an interval containing `t` only brings it
closer: the squared distance to the clamped point is at most the squared
distance to `t`. -/
theorem sq_clamp_le (a b c t : α) (h1 : a ≤ t) (h2 : t ≤ b) :
    (c - max a (min c b)) * (c - max a (min c b)) ≤ (c - t) * (c - t) := by
  rcases le_total c a with hca | hca
  · rw [min_eq_left (le_trans hca (le_trans h1 h2)), max_eq_left hca]
    nlinarith
  · rcases le_total c b with hcb | hcb
    · rw [min_eq_left hcb, max_eq_right hca]
      nlinarith
    · rw [min_eq_right hcb, max_eq_right (le_trans h1 h2)]
      nlinarith

/-- Query completeness: a stored point within distance `r` of the query centre
is always reported (its leaf, and every ancestor, survives the prune test). -/
theorem mem_query_of_storedIn :
    ∀ (t : QT α) (i : ℕ) (x y cx cy r : α), storedIn t i x y →
      (cx - x) * (cx - x) + (cy - y) * (cy - y) ≤ r * r →
      i ∈ queryNode t cx cy r := by
  intro t
  induction t with
  | leaf x0 y0 w h pts =>
    intro i x y cx cy r hs hd
    obtain ⟨hm, h1, h2, h3, h4⟩ := hs
    rw [queryNode_leaf]
    rw [if_neg (not_lt.mpr (le_trans (add_le_add
      (sq_clamp_le x0 (x0 + w) cx x h1 (le_of_lt h3))
      (sq_clamp_le y0 (y0 + h) cy y h2 (le_of_lt h4))) hd))]
    exact List.mem_map.mpr ⟨(i, x, y), hm, rfl⟩
  | node x0 y0 w h pts nw ne sw se ihnw ihne ihsw ihse =>
    intro i x y cx cy r hs hd
    obtain ⟨⟨h1, h2, h3, h4⟩, hsub⟩ := hs
    rw [queryNode_node]
    rw [if_neg (not_lt.mpr (le_trans (add_le_add
      (sq_clamp_le x0 (x0 + w) cx x h1 (le_of_lt h3))
      (sq_clamp_le y0 (y0 + h) cy y h2 (le_of_lt h4))) hd))]
    rcases hsub with hsub | hsub | hsub | hsub
    · exact List.mem_append_left _ (List.mem_append_left _ (List.mem_append_left _
        (ihnw i x y cx cy r hsub hd)))
    · exact List.mem_append_left _ (List.mem_append_left _ (List.mem_append_right _
        (ihne i x y cx cy r hsub hd)))
    · exact List.mem_append_left _ (List.mem_append_right _ (ihsw i x y cx cy r hsub hd))
    · exact List.mem_append_right _ (ihse i x y cx cy r hsub hd)

/-- Query soundness (counted): the query result never reports an index more
often than it is stored in the tree. -/
theorem count_query_le :
    ∀ (t : QT α) (cx cy r : α) (i : ℕ),
      (queryNode t cx cy r).count i ≤ ((entries t).map (fun e => e.1)).count i := by
  intro t
  induction t with
  | leaf x0 y0 w h pts =>
    intro cx cy r i
    rw [queryNode_leaf]
    split_ifs
    · simp
    · simp [entries]
  | node x0 y0 w h pts nw ne sw se ihnw ihne ihsw ihse =>
    intro cx cy r i
    rw [queryNode_node]
    split_ifs
    · simp
    · have h1 := ihnw cx cy r i
      have h2 := ihne cx cy r i
      have h3 := ihsw cx cy r i
      have h4 := ihse cx cy r i
      simp only [entries, List.map_append, List.count_append]
      omega

/-- Query soundness (membership): every index reported by a query is stored in
the tree. -/
theorem mem_entries_of_mem_query :
    ∀ (t : QT α) (cx cy r : α) (i : ℕ), i ∈ queryNode t cx cy r →
      ∃ x y, (i, x, y) ∈ entries t := by
  intro t
  induction t with
  | leaf x0 y0 w h pts =>
    intro cx cy r i hm
    rw [queryNode_leaf] at hm
    split_ifs at hm
    · simp at hm
    · obtain ⟨⟨j, a, b⟩, hmem, he⟩ := List.mem_map.mp hm
      exact ⟨a, b, by simpa [entries, ← he] using hmem⟩
  | node x0 y0 w h pts nw ne sw se ihnw ihne ihsw ihse =>
    intro cx cy r i hm
    rw [queryNode_node] at hm
    split_ifs at hm
    · simp at hm
    · simp only [List.mem_append] at hm
      rcases hm with ((hm | hm) | hm) | hm
      · obtain ⟨a, b, hab⟩ := ihnw cx cy r i hm
        exact ⟨a, b, by simp [entries, hab]⟩
      · obtain ⟨a, b, hab⟩ := ihne cx cy r i hm
        exact ⟨a, b, by simp [entries, hab]⟩
      · obtain ⟨a, b, hab⟩ := ihsw cx cy r i hm
        exact ⟨a, b, by simp [entries, hab]⟩
      · obtain ⟨a, b, hab⟩ := ihse cx cy r i hm
        exact ⟨a, b, by simp [entries, hab]⟩

/-- A query never contains duplicate indices when the tree stores each index
at most once. -/
theorem query_nodup (t : QT α) (cx cy r : α)
    (h : ((entries t).map (fun e => e.1)).Nodup) : (queryNode t cx cy r).Nodup := by
  rw [List.nodup_iff_count_le_one] at h ⊢
  exact fun i => le_trans (count_query_le t cx cy r i) (h i)

/-- The build loop preserves the capacity invariant and well-formedness. -/
theorem buildD_inv_wf (cap fuel : ℕ) :
    ∀ (pts : List (ℕ × α × α)) (t : QT α), invQT cap t → wfQT t →
      invQT cap (buildD cap fuel pts t).1 ∧ wfQT (buildD cap fuel pts t).1 := by
  intro pts
  induction pts with
  | nil => intro t hinv hwf; exact ⟨hinv, hwf⟩
  | cons e rest ih =>
    intro t hinv hwf
    obtain ⟨i, x, y⟩ := e
    obtain ⟨hinv', hwf', _⟩ := insertD_main cap fuel i x y t hinv hwf
    simpa [buildD] using ih (insertD cap fuel i x y t).1 hinv' hwf'

/-- The build loop never loses a previously stored point. -/
theorem buildD_pres (cap fuel : ℕ) :
    ∀ (pts : List (ℕ × α × α)) (t : QT α), invQT cap t → wfQT t →
      ∀ j a b, storedIn t j a b → storedIn (buildD cap fuel pts t).1 j a b := by
  intro pts
  induction pts with
  | nil => intro t _ _ j a b hs; exact hs
  | cons e rest ih =>
    intro t hinv hwf j a b hs
    obtain ⟨i, x, y⟩ := e
    obtain ⟨hinv', hwf', _, _, hpres, _⟩ := insertD_main cap fuel i x y t hinv hwf
    simpa [buildD] using
      ih (insertD cap fuel i x y t).1 hinv' hwf' j a b (hpres j a b hs)

/-- Any point whose insert during the build reported success is stored in the
final tree. -/
theorem buildD_stored (cap fuel : ℕ) :
    ∀ (pts : List (ℕ × α × α)) (t : QT α), invQT cap t → wfQT t →
      ∀ (k i : ℕ) (x y : α), (buildD cap fuel pts t).2.get? k = some true →
        pts.get? k = some (i, x, y) → storedIn (buildD cap fuel pts t).1 i x y := by
  intro pts
  induction pts with
  | nil => intro t _ _ k i x y _ hp; simp at hp
  | cons e rest ih =>
    intro t hinv hwf k i x y hb hp
    obtain ⟨j, a, b⟩ := e
    obtain ⟨hinv', hwf', _, hest, _, _⟩ := insertD_main cap fuel j a b t hinv hwf
    match k with
    | 0 =>
      simp only [buildD, List.get?] at hb hp
      have heq : (j, a, b) = (i, x, y) := Option.some.inj hp
      simp only [Prod.mk.injEq] at heq
      obtain ⟨rfl, rfl, rfl⟩ := heq
      exact buildD_pres cap fuel rest _ hinv' hwf' j a b (hest (Option.some.inj hb))
    | k + 1 =>
      simp only [buildD, List.get?] at hb hp
      exact ih (insertD cap fuel j a b t).1 hinv' hwf' k i x y hb hp

/-- When every insert of a build reports success, the stored points of the
resulting tree are exactly the inserted points (plus what was already there),
as multisets. -/
theorem buildD_entries_all_true (cap fuel : ℕ) :
    ∀ (pts : List (ℕ × α × α)) (t : QT α), invQT cap t → wfQT t →
      (∀ b ∈ (buildD cap fuel pts t).2, b = true) →
      (entries (buildD cap fuel pts t).1).Perm (pts ++ entries t) := by
  intro pts
  induction pts with
  | nil => intro t _ _ _; simp [buildD]
  | cons e rest ih =>
    intro t hinv hwf hall
    obtain ⟨j, a, b⟩ := e
    obtain ⟨hinv', hwf', hperm, _, _, _⟩ := insertD_main cap fuel j a b t hinv hwf
    have hhead : (insertD cap fuel j a b t).2 = true := by
      refine hall _ ?_
      simp [buildD]
    rw [hhead, if_pos rfl] at hperm
    have hrest : ∀ bb ∈ (buildD cap fuel rest (insertD cap fuel j a b t).1).2, bb = true := by
      intro bb hbb
      refine hall bb ?_
      simp [buildD, hbb]
    have ihr := ih (insertD cap fuel j a b t).1 hinv' hwf' hrest
    simp only [buildD]
    exact ihr.trans ((List.Perm.append_left rest hperm).trans List.perm_middle)

/-- Inserting into an undivided node already holding `cap` copies of the same
coordinates subdivides forever: every quadrant keeps all the copies together
with the incoming duplicate, so no recursion depth makes the insert succeed. -/
theorem insertD_saturated (cap : ℕ) :
    ∀ (fuel i : ℕ) (x y x0 y0 w h : α) (pts : List (ℕ × α × α)),
      pts.length = cap → (∀ e ∈ pts, e.2.1 = x ∧ e.2.2 = y) →
      inRect x0 y0 w h x y →
      (insertD cap fuel i x y (QT.leaf x0 y0 w h pts)).2 = false := by
  intro fuel
  induction fuel with
  | zero =>
    intro i x y x0 y0 w h pts hlen hco hin
    rw [insertD_leaf_stuck cap i x y x0 y0 w h pts hin (by omega)]
  | succ fuel ih =>
    intro i x y x0 y0 w h pts hlen hco hin
    have hwf' : ∀ e ∈ pts, inRect x0 y0 w h e.2.1 e.2.2 := by
      intro e he
      obtain ⟨h1, h2⟩ := hco e he
      rw [h1, h2]
      exact hin
    rw [insertD_leaf_split cap fuel i x y x0 y0 w h pts hin (by omega),
      subdivCs_eq cap fuel x0 y0 w h pts hwf' (le_of_eq hlen)]
    have hfilt : ∀ k, childIdx x0 y0 w h x y = k → quadFilter x0 y0 w h pts k = pts := by
      intro k hk
      refine List.filter_eq_self.mpr ?_
      intro e he
      obtain ⟨h1, h2⟩ := hco e he
      simp [h1, h2, hk]
    rcases childIdx_quadrant x0 y0 w h x y hin with
      ⟨hci, hq⟩ | ⟨hci, hq⟩ | ⟨hci, hq⟩ | ⟨hci, hq⟩ <;> rw [hci] <;>
      simp only [childAt, setChild] <;> rw [hfilt _ hci] <;>
      exact ih i x y _ _ _ _ pts hlen hco hq

/-- A build of at most `cap` in-bounds points into an undivided node with room
succeeds outright: every insert is a direct append. -/
theorem buildD_small (cap fuel : ℕ) :
    ∀ (pts pts0 : List (ℕ × α × α)) (x0 y0 w h : α),
      pts0.length + pts.length ≤ cap →
      (∀ e ∈ pts, inRect x0 y0 w h e.2.1 e.2.2) →
      (buildD cap fuel pts (QT.leaf x0 y0 w h pts0)).2 =
        List.replicate pts.length true := by
  intro pts
  induction pts with
  | nil => intro pts0 x0 y0 w h _ _; simp [buildD]
  | cons e rest ih =>
    intro pts0 x0 y0 w h hlen hin
    obtain ⟨i, x, y⟩ := e
    simp only [List.length_cons] at hlen
    simp only [buildD]
    rw [insertD_leaf_append cap fuel i x y x0 y0 w h pts0
      (hin (i, x, y) (List.mem_cons_self _ _)) (by omega)]
    rw [ih (pts0 ++ [(i, x, y)]) x0 y0 w h
      (by simp only [List.length_append, List.length_singleton]; omega)
      (fun e he => hin e (List.mem_cons_of_mem _ he))]
    simp [List.replicate_succ]

/-- Whether some recursion depth makes every insert of this build succeed
(the fuel-free claim "the build terminates and every insert returns true"). -/
def buildEverSucceeds (cap : ℕ) (pts : List (ℕ × ℚ × ℚ)) (t : QT ℚ) : Prop :=
  ∃ fuel, ∀ b ∈ (buildD cap fuel pts t).2, b = true

/-- C2 (counterexample): with quadtreeCapacity 1 and two agents at the exact
same in-bounds coordinates (50, 50) of a 100×100 world, no recursion depth
makes both inserts of the build return true — the overflowing insert keeps
subdividing and never succeeds, refuting "every position is inserted
successfully ... including position sets in which more than quadtreeCapacity
agents share the exact same coordinates". -/
theorem C2_counterexample :
    ¬ buildEverSucceeds 1 [(0, 50, 50), (1, 50, 50)] (QT.leaf 0 0 100 100 []) := by
  rintro ⟨fuel, hall⟩
  have h1 : insertD 1 fuel 0 (50 : ℚ) 50 (QT.leaf 0 0 100 100 []) =
      (QT.leaf 0 0 100 100 [(0, 50, 50)], true) :=
    insertD_leaf_append 1 fuel 0 50 50 0 0 100 100 []
      (by norm_num [inRect]) (by norm_num)
  have h2 : (insertD 1 fuel 1 (50 : ℚ) 50 (QT.leaf 0 0 100 100 [(0, 50, 50)])).2 = false :=
    insertD_saturated 1 fuel 1 50 50 0 0 100 100 [(0, 50, 50)]
      (by norm_num) (by norm_num) (by norm_num [inRect])
  have hmem : false ∈
      (buildD 1 fuel [(0, (50 : ℚ), 50), (1, 50, 50)] (QT.leaf 0 0 100 100 [])).2 := by
    simp only [buildD, h1]
    simp [h2]
  exact absurd (hall false hmem) (by simp)

/-- C2 (amended): for every finite set of at most quadtreeCapacity agent
positions lying inside the world rectangle's half-open bounds, building the
spatial index succeeds: every insert returns true, at every recursion-depth
bound.  (With more than quadtreeCapacity agents at identical coordinates the
overflowing insert never returns true; see the counterexample.) -/
theorem C2_small_build_succeeds (cap fuel : ℕ) (pts : List (ℕ × α × α))
    (x0 y0 w h : α) (hlen : pts.length ≤ cap)
    (hin : ∀ e ∈ pts, inRect x0 y0 w h e.2.1 e.2.2) :
    ∀ b ∈ (buildD cap fuel pts (QT.leaf x0 y0 w h [])).2, b = true := by
  rw [buildD_small cap fuel pts [] x0 y0 w h (by simpa using hlen) hin]
  intro b hb
  exact List.eq_of_mem_replicate hb

/-- Witness for the amended C2: a concrete 2-point build at capacity 2
succeeds. -/
theorem C2_small_build_succeeds_witness :
    ([(0, (10 : ℚ), 10), (1, 80, 80)].length ≤ 2 ∧
      (∀ e ∈ [(0, (10 : ℚ), 10), (1, 80, 80)], inRect 0 0 100 100 e.2.1 e.2.2)) ∧
    (∀ b ∈ (buildD 2 3 [(0, (10 : ℚ), 10), (1, 80, 80)] (QT.leaf 0 0 100 100 [])).2,
      b = true) := by
  have hlen : [(0, (10 : ℚ), 10), (1, 80, 80)].length ≤ 2 := by norm_num
  have hin : ∀ e ∈ [(0, (10 : ℚ), 10), (1, 80, 80)], inRect 0 0 100 100 e.2.1 e.2.2 := by
    intro e he
    simp only [List.mem_cons, List.not_mem_nil, or_false] at he
    rcases he with rfl | rfl <;> norm_num [inRect]
  exact ⟨⟨hlen, hin⟩, C2_small_build_succeeds 2 3 _ 0 0 100 100 hlen hin⟩

/-- C5: for every agent whose position was successfully inserted during a
build from the empty root (insert returned true), a query centred at that
agent's exact position with radius 0 returns a sequence containing that
agent's index. -/
theorem C5_roundtrip (cap fuel : ℕ) (pts : List (ℕ × α × α)) (x0 y0 w h : α)
    (k i : ℕ) (x y : α)
    (hb : (buildD cap fuel pts (QT.leaf x0 y0 w h [])).2.get? k = some true)
    (hp : pts.get? k = some (i, x, y)) :
    i ∈ queryNode (buildD cap fuel pts (QT.leaf x0 y0 w h [])).1 x y 0 := by
  have hst := buildD_stored cap fuel pts (QT.leaf x0 y0 w h [])
    (Nat.zero_le cap) (fun e he => absurd he (List.not_mem_nil e)) k i x y hb hp
  refine mem_query_of_storedIn _ i x y x y 0 hst ?_
  simp

/-- Witness for C5: in a concrete capacity-1 build that forces a subdivision,
agent 0 is found again by a radius-0 query at its own position. -/
theorem C5_roundtrip_witness :
    ((buildD 1 3 [(0, (10 : ℚ), 10), (1, 80, 80)] (QT.leaf 0 0 100 100 [])).2.get? 0 =
        some true ∧
      ([(0, (10 : ℚ), 10), (1, 80, 80)] : List (ℕ × ℚ × ℚ)).get? 0 = some (0, 10, 10)) ∧
    0 ∈ queryNode (buildD 1 3 [(0, (10 : ℚ), 10), (1, 80, 80)]
      (QT.leaf 0 0 100 100 [])).1 10 10 0 := by
  have hb : (buildD 1 3 [(0, (10 : ℚ), 10), (1, 80, 80)]
      (QT.leaf 0 0 100 100 [])).2.get? 0 = some true := by
    norm_num [buildD, insertD, redist, childIdx, childAt, setChild]
  have hp : ([(0, (10 : ℚ), 10), (1, 80, 80)] : List (ℕ × ℚ × ℚ)).get? 0 =
      some (0, 10, 10) := by norm_num
  exact ⟨⟨hb, hp⟩, C5_roundtrip 1 3 _ 0 0 100 100 0 0 10 10 hb hp⟩

/-- C6: the quadtree node invariant is preserved by every insert — an
undivided node stores at most `capacity` points and a divided node's own
storage is empty — a fresh root satisfies it, and no node ever reverts from
divided to undivided. -/
theorem C6_invariant (cap fuel i : ℕ) (x y : α) (t : QT α)
    (hinv : invQT cap t) (hwf : wfQT t) :
    invQT cap (insertD cap fuel i x y t).1 ∧
      dividedLe t (insertD cap fuel i x y t).1 ∧
      (∀ x0 y0 w h : α, invQT cap (QT.leaf x0 y0 w h [])) := by
  obtain ⟨h1, _, _, _, _, h6⟩ := insertD_main cap fuel i x y t hinv hwf
  exact ⟨h1, h6, fun x0 y0 w h => Nat.zero_le cap⟩

/-- Witness for C6 at a concrete overflowing insert (which subdivides). -/
theorem C6_invariant_witness :
    (invQT 1 (QT.leaf (0 : ℚ) 0 100 100 [(0, 10, 10)]) ∧
      wfQT (QT.leaf (0 : ℚ) 0 100 100 [(0, 10, 10)])) ∧
    (invQT 1 (insertD 1 3 1 (80 : ℚ) 80 (QT.leaf 0 0 100 100 [(0, 10, 10)])).1 ∧
      dividedLe (QT.leaf (0 : ℚ) 0 100 100 [(0, 10, 10)])
        (insertD 1 3 1 (80 : ℚ) 80 (QT.leaf 0 0 100 100 [(0, 10, 10)])).1 ∧
      (∀ x0 y0 w h : ℚ, invQT 1 (QT.leaf x0 y0 w h []))) := by
  have hinv : invQT 1 (QT.leaf (0 : ℚ) 0 100 100 [(0, 10, 10)]) := by
    show [(0, (10 : ℚ), 10)].length ≤ 1
    norm_num
  have hwf : wfQT (QT.leaf (0 : ℚ) 0 100 100 [(0, 10, 10)]) := by
    intro e he
    simp only [List.mem_singleton] at he
    rw [he]
    norm_num [inRect]
  exact ⟨⟨hinv, hwf⟩, C6_invariant 1 3 1 80 80 _ hinv hwf⟩

/-- C10: a point sitting exactly on the right or bottom edge of a node's
rectangle fails the half-open bounds check: insert returns false and leaves
the tree unchanged, and an index stored nowhere in a tree appears in no query
result on it. -/
theorem C10_edge_insert (cap fuel i : ℕ) (x y : α) (t : QT α)
    (hedge : x = QT.rx t + QT.rw t ∨ y = QT.ry t + QT.rh t)
    (hnone : ∀ a b : α, (i, a, b) ∉ entries t) :
    insertD cap fuel i x y t = (t, false) ∧ ∀ cx cy r : α, i ∉ queryNode t cx cy r := by
  constructor
  · refine insertD_out cap fuel i x y t ?_
    rintro ⟨h1, h2, h3, h4⟩
    rcases hedge with h | h
    · rw [h] at h3; exact absurd h3 (lt_irrefl _)
    · rw [h] at h4; exact absurd h4 (lt_irrefl _)
  · intro cx cy r hmem
    obtain ⟨a, b, hab⟩ := mem_entries_of_mem_query t cx cy r i hmem
    exact hnone a b hab

/-- Witness for C10: inserting agent 1 at the exact right edge x = 100 of the
100×100 root is rejected and agent 1 is absent from every query. -/
theorem C10_edge_insert_witness :
    (((100 : ℚ) = QT.rx (QT.leaf (0 : ℚ) 0 100 100 [(0, 10, 10)]) +
        QT.rw (QT.leaf (0 : ℚ) 0 100 100 [(0, 10, 10)]) ∨
      (50 : ℚ) = QT.ry (QT.leaf (0 : ℚ) 0 100 100 [(0, 10, 10)]) +
        QT.rh (QT.leaf (0 : ℚ) 0 100 100 [(0, 10, 10)])) ∧
      (∀ a b : ℚ, (1, a, b) ∉ entries (QT.leaf (0 : ℚ) 0 100 100 [(0, 10, 10)]))) ∧
    (insertD 1 3 1 (100 : ℚ) 50 (QT.leaf 0 0 100 100 [(0, 10, 10)]) =
        (QT.leaf 0 0 100 100 [(0, 10, 10)], false) ∧
      ∀ cx cy r : ℚ, 1 ∉ queryNode (QT.leaf (0 : ℚ) 0 100 100 [(0, 10, 10)]) cx cy r) := by
  have hedge : (100 : ℚ) = QT.rx (QT.leaf (0 : ℚ) 0 100 100 [(0, 10, 10)]) +
      QT.rw (QT.leaf (0 : ℚ) 0 100 100 [(0, 10, 10)]) ∨
      (50 : ℚ) = QT.ry (QT.leaf (0 : ℚ) 0 100 100 [(0, 10, 10)]) +
      QT.rh (QT.leaf (0 : ℚ) 0 100 100 [(0, 10, 10)]) := by
    left
    show (100 : ℚ) = 0 + 100
    norm_num
  have hnone : ∀ a b : ℚ, (1, a, b) ∉ entries (QT.leaf (0 : ℚ) 0 100 100 [(0, 10, 10)]) := by
    intro a b hmem
    simp only [entries, List.mem_singleton, Prod.mk.injEq] at hmem
    exact absurd hmem.1 (by norm_num)
  exact ⟨⟨hedge, hnone⟩, C10_edge_insert 1 3 1 100 50 _ hedge hnone⟩

noncomputable section

/-- Simulation configuration `CFG` (the generator's injected options that the
simulation core reads; rendering-only options are omitted).  `W`/`H` are
`innerWidth`/`innerHeight`, the world bounds used for the quadtree root and the
boundary policy. -/
structure Cfg where
  count : ℕ
  W : ℝ
  H : ℝ
  vision : ℝ
  sep : ℝ
  maxSpeed : ℝ
  maxForce : ℝ
  alignW : ℝ
  cohesionW : ℝ
  separationW : ℝ
  qtCap : ℕ
  wrap : Bool

/-- `limit(vx, vy, max)`: rescale the vector to magnitude `max`, preserving
direction, when its magnitude exceeds `max` (`m = Math.sqrt(m2) || 1`,
`s = max / m`). -/
def limit (vx vy m : ℝ) : ℝ × ℝ :=
  if vx * vx + vy * vy > m * m then
    (vx * (m / (if Real.sqrt (vx * vx + vy * vy) = 0 then 1
                else Real.sqrt (vx * vx + vy * vy))),
     vy * (m / (if Real.sqrt (vx * vx + vy * vy) = 0 then 1
                else Real.sqrt (vx * vx + vy * vy))))
  else (vx, vy)

/-- A shock event (`effects` element `{x, y, t, life, sign}`). -/
structure Event where
  x : ℝ
  y : ℝ
  t : ℝ
  life : ℝ
  sign : ℝ

/-- `spawnShock(x, y, sign)`: a fresh event with `t = 0` and `life = 1.2`. -/
def spawnShock (x y sign : ℝ) : Event :=
  { x := x, y := y, t := 0, life := 1.2, sign := sign }

/-- One frame's event bookkeeping: every active event advances `E.t += dt`,
forces are applied (elsewhere), and events whose progress `k = t/life`
reached 1 are spliced out at the end of the frame's shock loop. -/
def stepEffects (dt : ℝ) (es : List Event) : List Event :=
  (es.map fun E => { E with t := E.t + dt }).filter fun E => decide (E.t / E.life < 1)

/-- The distance `d = Math.hypot(dx, dy) || 1` from a shock's origin to an
agent. -/
def shockD (E : Event) (pxi pyi : ℝ) : ℝ :=
  if Real.sqrt ((pxi - E.x) * (pxi - E.x) + (pyi - E.y) * (pyi - E.y)) = 0 then 1
  else Real.sqrt ((pxi - E.x) * (pxi - E.x) + (pyi - E.y) * (pyi - E.y))

/-- The shock's current radius `r = 30 + k * 260` with `k = E.t / E.life`. -/
def shockR (E : Event) : ℝ :=
  30 + (E.t / E.life) * 260

/-- The force a shock applies to an agent at `(pxi, pyi)`:
`f = (sign > 0 ? +1 : -1) * (1.8 * (1 - min(1, d/r)))` along the direction
`(dx/d, dy/d)` from the event origin to the agent. -/
def shockForce (E : Event) (pxi pyi : ℝ) : ℝ × ℝ :=
  let dx := pxi - E.x
  let dy := pyi - E.y
  let d := shockD E pxi pyi
  let f := (if E.sign > 0 then (1 : ℝ) else -1) *
    (1.8 * (1 - min 1 (shockD E pxi pyi / shockR E)))
  ((dx / d) * f, (dy / d) * f)

/-- Data-oriented simulation state (SoA): positions, velocities, hues and the
active shock events.  `prevx`/`prevy`/`spd` are rendering-only copies and are
omitted; accelerations are zeroed and recomputed every frame, so they are
frame-local here. -/
structure SimState where
  px : ℕ → ℝ
  py : ℕ → ℝ
  vx : ℕ → ℝ
  vy : ℕ → ℝ
  hue : ℕ → ℝ
  effects : List Event

/-- The squared distance `dx*dx + dy*dy` from agent `i` to candidate `j`. -/
def dist2 (s : SimState) (i j : ℕ) : ℝ :=
  (s.px j - s.px i) * (s.px j - s.px i) + (s.py j - s.py i) * (s.py j - s.py i)

/-- The flocking neighbor condition the inner loop enforces for the
alignment/cohesion sums: a candidate distinct from the agent, not exactly
coincident (`d2 === 0` skipped), at exact distance below `vision`. -/
def nbCond (cfg : Cfg) (s : SimState) (i j : ℕ) : Prop :=
  j ≠ i ∧ dist2 s i j ≠ 0 ∧ Real.sqrt (dist2 s i j) < cfg.vision

instance (cfg : Cfg) (s : SimState) (i j : ℕ) : Decidable (nbCond cfg s i j) := by
  unfold nbCond; infer_instance

/-- The separation condition of the inner loop: exact distance below `sep`. -/
def sepCond (cfg : Cfg) (s : SimState) (i j : ℕ) : Prop :=
  j ≠ i ∧ dist2 s i j ≠ 0 ∧ Real.sqrt (dist2 s i j) < cfg.sep

instance (cfg : Cfg) (s : SimState) (i j : ℕ) : Decidable (sepCond cfg s i j) := by
  unfold sepCond; infer_instance

/-- The running accumulators of the flocking inner loop
(`cx, cy, vxsum, vysum, sx, sy, total, sclose`). -/
structure FlockAcc where
  cx : ℝ
  cy : ℝ
  vxsum : ℝ
  vysum : ℝ
  sx : ℝ
  sy : ℝ
  total : ℕ
  sclose : ℕ

attribute [ext] FlockAcc

/-- The alignment/cohesion accumulation branch `if (d < vision) { total++;
cx += px[j]; cy += py[j]; vxsum += vx[j]; vysum += vy[j] }` of the flocking
inner loop. -/
def flockVis (cfg : Cfg) (s : SimState) (i : ℕ) (acc : FlockAcc) (j : ℕ) : FlockAcc :=
  if Real.sqrt (dist2 s i j) < cfg.vision then
    { acc with
      total := acc.total + 1, cx := acc.cx + s.px j, cy := acc.cy + s.py j,
      vxsum := acc.vxsum + s.vx j, vysum := acc.vysum + s.vy j }
  else acc

/-- The separation accumulation branch `if (d < sep) { sclose++;
sx -= dx/(d||1); sy -= dy/(d||1) }` of the flocking inner loop. -/
def flockSep (cfg : Cfg) (s : SimState) (i : ℕ) (acc : FlockAcc) (j : ℕ) : FlockAcc :=
  if Real.sqrt (dist2 s i j) < cfg.sep then
    { acc with
      sclose := acc.sclose + 1,
      sx := acc.sx - (s.px j - s.px i) /
        (if Real.sqrt (dist2 s i j) = 0 then 1 else Real.sqrt (dist2 s i j)),
      sy := acc.sy - (s.py j - s.py i) /
        (if Real.sqrt (dist2 s i j) = 0 then 1 else Real.sqrt (dist2 s i j)) }
  else acc

/-- One iteration of the flocking inner loop over the neighbor candidates
(`for (let k=0;k<tmp.length;k++) ...`): skip self (`j===i`) and exactly
coincident candidates (`d2 === 0`), then run both accumulation branches. -/
def flockStep (cfg : Cfg) (s : SimState) (i : ℕ) (acc : FlockAcc) (j : ℕ) : FlockAcc :=
  if j = i then acc
  else if dist2 s i j = 0 then acc
  else flockSep cfg s i (flockVis cfg s i acc j) j

/-- Combining the accumulators into the added acceleration: if any neighbor
was counted, alignment `limit(vxsum/total - vx, maxForce) * alignW` plus
cohesion `limit(cx/total - px, maxForce) * cohesionW`; if any close neighbor
was counted, separation `limit(sx, sy, maxForce*1.5) * separationW`. -/
def flockCombine (cfg : Cfg) (s : SimState) (i : ℕ) (acc : FlockAcc) : ℝ × ℝ :=
  ((if acc.total > 0 then
      (limit (acc.vxsum / (acc.total : ℝ) - s.vx i)
        (acc.vysum / (acc.total : ℝ) - s.vy i) cfg.maxForce).1 * cfg.alignW +
      (limit (acc.cx / (acc.total : ℝ) - s.px i)
        (acc.cy / (acc.total : ℝ) - s.py i) cfg.maxForce).1 * cfg.cohesionW
    else 0) +
   (if acc.sclose > 0 then
      (limit acc.sx acc.sy (cfg.maxForce * 1.5)).1 * cfg.separationW
    else 0),
   (if acc.total > 0 then
      (limit (acc.vxsum / (acc.total : ℝ) - s.vx i)
        (acc.vysum / (acc.total : ℝ) - s.vy i) cfg.maxForce).2 * cfg.alignW +
      (limit (acc.cx / (acc.total : ℝ) - s.px i)
        (acc.cy / (acc.total : ℝ) - s.py i) cfg.maxForce).2 * cfg.cohesionW
    else 0) +
   (if acc.sclose > 0 then
      (limit acc.sx acc.sy (cfg.maxForce * 1.5)).2 * cfg.separationW
    else 0))

/-- The acceleration the flocking phase adds to agent `i`, given the neighbor
candidate list `tmp` returned by the quadtree query (lines 260–283 of the
embedded script): run the inner loop over the candidates, then combine the
accumulators. -/
def flockForce (cfg : Cfg) (s : SimState) (i : ℕ) (tmp : List ℕ) : ℝ × ℝ :=
  flockCombine cfg s i (tmp.foldl (flockStep cfg s i) ⟨0, 0, 0, 0, 0, 0, 0, 0⟩)

/-- JavaScript truncating division used by the `%` operator: round toward
zero. -/
def jsTrunc (x : ℝ) : ℤ :=
  if 0 ≤ x then ⌊x⌋ else -⌊-x⌋

/-- The JavaScript remainder `a % b` (sign follows the dividend). -/
def jsMod (a b : ℝ) : ℝ :=
  a - b * (jsTrunc (a / b) : ℝ)

/-- The seeded PRNG step
`_seed = (1103515245 * _seed + 12345) & 0x7fffffff`. -/
def lcg (sd : ℕ) : ℕ :=
  (1103515245 * sd + 12345) % 2 ^ 31

/-- The initial seed `(BASE_HUE * 9301 + 49297) % 233280`. -/
def seed0 (hue0 : ℕ) : ℕ :=
  (hue0 * 9301 + 49297) % 233280

/-- The value returned by the (0-based) `k`-th call of `rnd()`:
`(_seed >>> 8) / 0x7fffff` after the seed has been advanced `k + 1` times. -/
def rndValAt (hue0 k : ℕ) : ℝ :=
  ((lcg^[k + 1] (seed0 hue0)) / 2 ^ 8 : ℕ) / ((2 : ℝ) ^ 23 - 1)

/-- `rand(min, max) = rnd() * (max - min) + min` at the `k`-th PRNG call. -/
def randAt (hue0 k : ℕ) (lo hi : ℝ) : ℝ :=
  rndValAt hue0 k * (hi - lo) + lo

/-- Agent initialisation (five `rand` draws per agent, in program order:
position x, position y, raw velocity x, raw velocity y, hue), with the raw
velocity normalised to speed 2 (`m = Math.hypot(vx, vy) || 1; vx *= 2/m`). -/
def initState (cfg : Cfg) (hue0 : ℕ) : SimState :=
  { px := fun i => randAt hue0 (5 * i) 0 cfg.W
    py := fun i => randAt hue0 (5 * i + 1) 0 cfg.H
    vx := fun i =>
      let vx0 := randAt hue0 (5 * i + 2) (-1) 1
      let vy0 := randAt hue0 (5 * i + 3) (-1) 1
      let m0 := Real.sqrt (vx0 * vx0 + vy0 * vy0)
      vx0 * (2 / (if m0 = 0 then 1 else m0))
    vy := fun i =>
      let vx0 := randAt hue0 (5 * i + 2) (-1) 1
      let vy0 := randAt hue0 (5 * i + 3) (-1) 1
      let m0 := Real.sqrt (vx0 * vx0 + vy0 * vy0)
      vy0 * (2 / (if m0 = 0 then 1 else m0))
    hue := fun i => jsMod ((hue0 : ℝ) + randAt hue0 (5 * i + 4) (-30) 30) 360
    effects := [] }

/-- The wrap boundary for one coordinate: past the 5px margin the agent
reappears at the opposite edge. -/
def wrapCoord (p bound : ℝ) : ℝ :=
  if p < -5 then bound + 5 else if p > bound + 5 then -5 else p

/-- Integration and boundary handling for one agent (the integrate loop of
`frame`): `v += a`, clamp speed with `limit`, `p += v`, then wrap or bounce
(bounce flips the velocity component and clamps the position into the
world). -/
def integrateAgent (cfg : Cfg) (axi ayi pxi pyi vxi vyi : ℝ) : ℝ × ℝ × ℝ × ℝ :=
  if cfg.wrap then
    (wrapCoord (pxi + (limit (vxi + axi) (vyi + ayi) cfg.maxSpeed).1) cfg.W,
     wrapCoord (pyi + (limit (vxi + axi) (vyi + ayi) cfg.maxSpeed).2) cfg.H,
     (limit (vxi + axi) (vyi + ayi) cfg.maxSpeed).1,
     (limit (vxi + axi) (vyi + ayi) cfg.maxSpeed).2)
  else
    (max 0 (min cfg.W (pxi + (limit (vxi + axi) (vyi + ayi) cfg.maxSpeed).1)),
     max 0 (min cfg.H (pyi + (limit (vxi + axi) (vyi + ayi) cfg.maxSpeed).2)),
     if pxi + (limit (vxi + axi) (vyi + ayi) cfg.maxSpeed).1 < 0 ∨
        pxi + (limit (vxi + axi) (vyi + ayi) cfg.maxSpeed).1 > cfg.W then
       -(limit (vxi + axi) (vyi + ayi) cfg.maxSpeed).1
     else (limit (vxi + axi) (vyi + ayi) cfg.maxSpeed).1,
     if pyi + (limit (vxi + axi) (vyi + ayi) cfg.maxSpeed).2 < 0 ∨
        pyi + (limit (vxi + axi) (vyi + ayi) cfg.maxSpeed).2 > cfg.H then
       -(limit (vxi + axi) (vyi + ayi) cfg.maxSpeed).2
     else (limit (vxi + axi) (vyi + ayi) cfg.maxSpeed).2)

/-- The body of the shock loop for one event: every agent the quadtree
reports within the current radius receives the shock force into its
acceleration slot and the colour burst
`hue = (hue + 120 * (1 - min(1, d/r))) % 360`. -/
def applyShock (s : SimState) (qt : QT ℝ) (E : Event)
    (acc : (ℕ → ℝ) × (ℕ → ℝ) × (ℕ → ℝ)) : (ℕ → ℝ) × (ℕ → ℝ) × (ℕ → ℝ) :=
  (queryNode qt E.x E.y (shockR E)).foldl
    (fun a i =>
      (Function.update a.1 i (a.1 i + (shockForce E (s.px i) (s.py i)).1),
       Function.update a.2.1 i (a.2.1 i + (shockForce E (s.px i) (s.py i)).2),
       Function.update a.2.2 i
         (jsMod (a.2.2 i + 120 * (1 - min 1 (shockD E (s.px i) (s.py i) / shockR E)))
           360)))
    acc

/-- The per-frame quadtree build input: each agent's index and position. -/
def agentEntries (cfg : Cfg) (s : SimState) : List (ℕ × ℝ × ℝ) :=
  (List.range cfg.count).map fun i => (i, s.px i, s.py i)

/-- One `frame` of the simulation core with a clamped `dt`: rebuild the
quadtree, reset accelerations and run the flocking pass, advance every shock
event and apply its push/pull (the source iterates the effects array from the
end), splice out expired events, then integrate every agent with the boundary
policy.  Rendering is omitted; no events are injected (pointer handlers are
external). -/
def stepSim (cfg : Cfg) (fuel : ℕ) (dt : ℝ) (s : SimState) : SimState :=
  let qt := (buildD cfg.qtCap fuel (agentEntries cfg s) (QT.leaf 0 0 cfg.W cfg.H [])).1
  let ax0 : ℕ → ℝ := fun i =>
    (flockForce cfg s i (queryNode qt (s.px i) (s.py i) cfg.vision)).1
  let ay0 : ℕ → ℝ := fun i =>
    (flockForce cfg s i (queryNode qt (s.px i) (s.py i) cfg.vision)).2
  let bumped := s.effects.map fun E => { E with t := E.t + dt }
  let sh := bumped.reverse.foldl (fun a E => applyShock s qt E a) (ax0, ay0, s.hue)
  let integ := fun i =>
    integrateAgent cfg (sh.1 i) (sh.2.1 i) (s.px i) (s.py i) (s.vx i) (s.vy i)
  { px := fun i => (integ i).1
    py := fun i => (integ i).2.1
    vx := fun i => (integ i).2.2.1
    vy := fun i => (integ i).2.2.2
    hue := sh.2.2
    effects := bumped.filter fun E => decide (E.t / E.life < 1) }

/-- Iterating `frame` over a finite list of clamped dt values. -/
def runSim (cfg : Cfg) (fuel : ℕ) (dts : List ℝ) (s : SimState) : SimState :=
  dts.foldl (fun st d => stepSim cfg fuel d st) s

/-- A run of the simulation loop: state 0 is the freshly initialised state
for the given base hue (the seed) and every following state is one `frame`
with the given dt sequence, with no injected events. -/
def IsRun (cfg : Cfg) (fuel : ℕ) (hue0 : ℕ) (dts : ℕ → ℝ) (tr : ℕ → SimState) : Prop :=
  tr 0 = initState cfg hue0 ∧ ∀ n, tr (n + 1) = stepSim cfg fuel (dts n) (tr n)

/-- The run obtained by iterating `stepSim` from the initial state. -/
def canonicalRun (cfg : Cfg) (fuel : ℕ) (hue0 : ℕ) (dts : ℕ → ℝ) : ℕ → SimState
  | 0 => initState cfg hue0
  | n + 1 => stepSim cfg fuel (dts n) (canonicalRun cfg fuel hue0 dts n)

/-- Close-neighbor condition in the words of claim C4/C7: a neighbor
(strictly closer than vision) that is additionally strictly closer than
`sep`. -/
def closeCond (cfg : Cfg) (s : SimState) (i j : ℕ) : Prop :=
  nbCond cfg s i j ∧ Real.sqrt (dist2 s i j) < cfg.sep

instance (cfg : Cfg) (s : SimState) (i j : ℕ) : Decidable (closeCond cfg s i j) := by
  unfold closeCond; infer_instance

/-- The exact-distance neighbors of agent `i` among all agents. -/
def neighborList (cfg : Cfg) (s : SimState) (i : ℕ) : List ℕ :=
  (List.range cfg.count).filter fun j => decide (nbCond cfg s i j)

/-- The close neighbors (distance below `sep`) of agent `i` among all
agents. -/
def closeList (cfg : Cfg) (s : SimState) (i : ℕ) : List ℕ :=
  (List.range cfg.count).filter fun j => decide (closeCond cfg s i j)

/-- The flocking force in the words of claim C4 (the specification formula,
to be compared against `flockForce`): clamp(average neighbor velocity − own
velocity, maxForce) × alignWeight plus clamp(average neighbor position − own
position, maxForce) × cohesionWeight, plus — when some neighbor is strictly
closer than `sep` — clamp(sum of unit vectors pointing away from those close
neighbors, maxForce × 1.5) × separationWeight. -/
def specFlock (cfg : Cfg) (s : SimState) (i : ℕ) : ℝ × ℝ :=
  ((if neighborList cfg s i ≠ [] then
      (limit
        (((neighborList cfg s i).map fun j => s.vx j).sum /
            ((neighborList cfg s i).length : ℝ) - s.vx i)
        (((neighborList cfg s i).map fun j => s.vy j).sum /
            ((neighborList cfg s i).length : ℝ) - s.vy i) cfg.maxForce).1 * cfg.alignW +
      (limit
        (((neighborList cfg s i).map fun j => s.px j).sum /
            ((neighborList cfg s i).length : ℝ) - s.px i)
        (((neighborList cfg s i).map fun j => s.py j).sum /
            ((neighborList cfg s i).length : ℝ) - s.py i) cfg.maxForce).1 * cfg.cohesionW
    else 0) +
   (if closeList cfg s i ≠ [] then
      (limit ((closeList cfg s i).map fun j =>
          (s.px i - s.px j) / Real.sqrt (dist2 s i j)).sum
        ((closeList cfg s i).map fun j =>
          (s.py i - s.py j) / Real.sqrt (dist2 s i j)).sum
        (cfg.maxForce * 1.5)).1 * cfg.separationW
    else 0),
   (if neighborList cfg s i ≠ [] then
      (limit
        (((neighborList cfg s i).map fun j => s.vx j).sum /
            ((neighborList cfg s i).length : ℝ) - s.vx i)
        (((neighborList cfg s i).map fun j => s.vy j).sum /
            ((neighborList cfg s i).length : ℝ) - s.vy i) cfg.maxForce).2 * cfg.alignW +
      (limit
        (((neighborList cfg s i).map fun j => s.px j).sum /
            ((neighborList cfg s i).length : ℝ) - s.px i)
        (((neighborList cfg s i).map fun j => s.py j).sum /
            ((neighborList cfg s i).length : ℝ) - s.py i) cfg.maxForce).2 * cfg.cohesionW
    else 0) +
   (if closeList cfg s i ≠ [] then
      (limit ((closeList cfg s i).map fun j =>
          (s.px i - s.px j) / Real.sqrt (dist2 s i j)).sum
        ((closeList cfg s i).map fun j =>
          (s.py i - s.py j) / Real.sqrt (dist2 s i j)).sum
        (cfg.maxForce * 1.5)).2 * cfg.separationW
    else 0))

/-- The speed clamp works: after `limit`, the squared magnitude is at most
`m * m` (for `m ≥ 0`). -/
theorem limit_sq_le (vx vy m : ℝ) :
    (limit vx vy m).1 * (limit vx vy m).1 + (limit vx vy m).2 * (limit vx vy m).2 ≤
      m * m := by
  unfold limit
  split_ifs with h hz
  · have hm2 : 0 < vx * vx + vy * vy := lt_of_le_of_lt (mul_self_nonneg m) h
    exact absurd hz (ne_of_gt (Real.sqrt_pos.mpr hm2))
  · have hm2 : 0 < vx * vx + vy * vy := lt_of_le_of_lt (mul_self_nonneg m) h
    have hsq : (0 : ℝ) < Real.sqrt (vx * vx + vy * vy) := Real.sqrt_pos.mpr hm2
    have hmag : Real.sqrt (vx * vx + vy * vy) * Real.sqrt (vx * vx + vy * vy) =
        vx * vx + vy * vy := Real.mul_self_sqrt (le_of_lt hm2)
    have key : vx * (m / Real.sqrt (vx * vx + vy * vy)) *
        (vx * (m / Real.sqrt (vx * vx + vy * vy))) +
        vy * (m / Real.sqrt (vx * vx + vy * vy)) *
        (vy * (m / Real.sqrt (vx * vx + vy * vy))) = m * m := by
      field_simp
      ring
    exact le_of_eq key
  · push_neg at h
    exact h

/-- After integration and either boundary policy, an agent's speed is at most
`maxSpeed` (the bounce sign flips do not change the magnitude). -/
theorem integrateAgent_speed (cfg : Cfg) (hms : 0 ≤ cfg.maxSpeed)
    (axi ayi pxi pyi vxi vyi : ℝ) :
    Real.sqrt ((integrateAgent cfg axi ayi pxi pyi vxi vyi).2.2.1 *
      (integrateAgent cfg axi ayi pxi pyi vxi vyi).2.2.1 +
      (integrateAgent cfg axi ayi pxi pyi vxi vyi).2.2.2 *
      (integrateAgent cfg axi ayi pxi pyi vxi vyi).2.2.2) ≤ cfg.maxSpeed := by
  have hb := limit_sq_le (vxi + axi) (vyi + ayi) cfg.maxSpeed
  unfold integrateAgent
  split_ifs <;> dsimp only <;>
    refine le_trans (Real.sqrt_le_sqrt ?_) (le_of_eq (Real.sqrt_mul_self hms)) <;>
    nlinarith [hb]

/-- C1: after every call to `step()`, for every agent, the magnitude of its
velocity vector is at most the configured maxSpeed, for every configuration
with maxSpeed > 0, under either boundary mode, regardless of how much
acceleration flocking and shock events accumulated that step. -/
theorem C1_speed_clamped (cfg : Cfg) (fuel : ℕ) (dt : ℝ) (s : SimState) (i : ℕ)
    (hms : 0 < cfg.maxSpeed) :
    Real.sqrt ((stepSim cfg fuel dt s).vx i * (stepSim cfg fuel dt s).vx i +
      (stepSim cfg fuel dt s).vy i * (stepSim cfg fuel dt s).vy i) ≤ cfg.maxSpeed :=
  integrateAgent_speed cfg (le_of_lt hms) _ _ (s.px i) (s.py i) (s.vx i) (s.vy i)

/-- Witness for C1 at a concrete configuration and state. -/
def cfgEx : Cfg :=
  { count := 1, W := 100, H := 100, vision := 50, sep := 10, maxSpeed := 3,
    maxForce := 1 / 20, alignW := 1, cohesionW := 1, separationW := 2, qtCap := 8,
    wrap := true }

/-- A concrete one-agent state used by witnesses. -/
def stateEx : SimState :=
  { px := fun _ => 10, py := fun _ => 10, vx := fun _ => 0, vy := fun _ => 0,
    hue := fun _ => 200, effects := [] }

theorem C1_speed_clamped_witness :
    (0 : ℝ) < cfgEx.maxSpeed ∧
    Real.sqrt ((stepSim cfgEx 5 (1 / 60) stateEx).vx 0 *
      (stepSim cfgEx 5 (1 / 60) stateEx).vx 0 +
      (stepSim cfgEx 5 (1 / 60) stateEx).vy 0 *
      (stepSim cfgEx 5 (1 / 60) stateEx).vy 0) ≤ cfgEx.maxSpeed := by
  have hms : (0 : ℝ) < cfgEx.maxSpeed := by norm_num [cfgEx]
  exact ⟨hms, C1_speed_clamped cfgEx 5 (1 / 60) stateEx 0 hms⟩

/-- For an agent not exactly at the event origin, the magnitude of the shock
force vector is `|1.8 * (1 - min(1, d/r))|` (the direction factor is a unit
vector and the sign factor has absolute value 1). -/
theorem shockForce_mag (E : Event) (pxi pyi : ℝ)
    (hd : (pxi - E.x) * (pxi - E.x) + (pyi - E.y) * (pyi - E.y) ≠ 0) :
    Real.sqrt ((shockForce E pxi pyi).1 * (shockForce E pxi pyi).1 +
      (shockForce E pxi pyi).2 * (shockForce E pxi pyi).2) =
      |1.8 * (1 - min 1 (shockD E pxi pyi / shockR E))| := by
  have hpos : 0 < (pxi - E.x) * (pxi - E.x) + (pyi - E.y) * (pyi - E.y) := by
    rcases lt_or_eq_of_le (add_nonneg (mul_self_nonneg (pxi - E.x))
      (mul_self_nonneg (pyi - E.y))) with h | h
    · exact h
    · exact absurd h.symm hd
  have hsq : 0 < Real.sqrt ((pxi - E.x) * (pxi - E.x) + (pyi - E.y) * (pyi - E.y)) :=
    Real.sqrt_pos.mpr hpos
  have hD : shockD E pxi pyi =
      Real.sqrt ((pxi - E.x) * (pxi - E.x) + (pyi - E.y) * (pyi - E.y)) := by
    unfold shockD
    rw [if_neg (ne_of_gt hsq)]
  have hmul : Real.sqrt ((pxi - E.x) * (pxi - E.x) + (pyi - E.y) * (pyi - E.y)) *
      Real.sqrt ((pxi - E.x) * (pxi - E.x) + (pyi - E.y) * (pyi - E.y)) =
      (pxi - E.x) * (pxi - E.x) + (pyi - E.y) * (pyi - E.y) :=
    Real.mul_self_sqrt (le_of_lt hpos)
  unfold shockForce
  dsimp only
  rw [hD]
  set d := Real.sqrt ((pxi - E.x) * (pxi - E.x) + (pyi - E.y) * (pyi - E.y)) with hdd
  set g := (if E.sign > 0 then (1 : ℝ) else -1) *
    (1.8 * (1 - min 1 (d / shockR E))) with hg
  have hdne : (pxi - E.x) * (pxi - E.x) + (pyi - E.y) * (pyi - E.y) ≠ 0 := hd
  have hsum : (pxi - E.x) / d * g * ((pxi - E.x) / d * g) +
      (pyi - E.y) / d * g * ((pyi - E.y) / d * g) =
      ((pxi - E.x) * (pxi - E.x) + (pyi - E.y) * (pyi - E.y)) / (d * d) * (g * g) := by
    ring
  rw [hsum, hmul, div_self hdne, one_mul]
  rw [Real.sqrt_mul_self_eq_abs]
  rw [hg, abs_mul]
  have : |if E.sign > 0 then (1 : ℝ) else -1| = 1 := by
    split_ifs <;> norm_num
  rw [this, one_mul]

/-- C3 (counterexample): an agent 10 units from a shock's origin, inside the
current radius, receives a strictly larger force at elapsed time 0.6 than at
elapsed time 0: the applied force magnitude grows as the event ages (the
`1 - k` fade only scales the painted ring), refuting "strictly decreases". -/
theorem C3_counterexample :
    Real.sqrt ((shockForce { x := 0, y := 0, t := 0, life := 1.2, sign := 1 } 10 0).1 *
        (shockForce { x := 0, y := 0, t := 0, life := 1.2, sign := 1 } 10 0).1 +
      (shockForce { x := 0, y := 0, t := 0, life := 1.2, sign := 1 } 10 0).2 *
        (shockForce { x := 0, y := 0, t := 0, life := 1.2, sign := 1 } 10 0).2) <
    Real.sqrt ((shockForce { x := 0, y := 0, t := 0.6, life := 1.2, sign := 1 } 10 0).1 *
        (shockForce { x := 0, y := 0, t := 0.6, life := 1.2, sign := 1 } 10 0).1 +
      (shockForce { x := 0, y := 0, t := 0.6, life := 1.2, sign := 1 } 10 0).2 *
        (shockForce { x := 0, y := 0, t := 0.6, life := 1.2, sign := 1 } 10 0).2) := by
  have hsd : ∀ t : ℝ, shockD { x := 0, y := 0, t := t, life := 1.2, sign := 1 } 10 0 = 10 := by
    intro t
    unfold shockD
    norm_num
    rw [show (100 : ℝ) = 10 ^ 2 by norm_num, Real.sqrt_sq (by norm_num : (0 : ℝ) ≤ 10)]
  rw [shockForce_mag _ 10 0 (by norm_num), shockForce_mag _ 10 0 (by norm_num), hsd, hsd]
  have hr1 : shockR { x := 0, y := 0, t := 0, life := 1.2, sign := 1 } = 30 := by
    unfold shockR
    norm_num
  have hr2 : shockR { x := 0, y := 0, t := 0.6, life := 1.2, sign := 1 } = 160 := by
    unfold shockR
    norm_num
  rw [hr1, hr2]
  rw [show min (1:ℝ) (10 / 30) = 10 / 30 from min_eq_right (by norm_num),
    show min (1:ℝ) (10 / 160) = 10 / 160 from min_eq_right (by norm_num)]
  rw [abs_of_nonneg (by norm_num : (0:ℝ) ≤ 1.8 * (1 - 10 / 30)),
    abs_of_nonneg (by norm_num : (0:ℝ) ≤ 1.8 * (1 - 10 / 160))]
  norm_num

/-- C3 (amended): for one active shock event and an agent at a fixed position
strictly within the event's current radius and away from its origin, the
magnitude of the force the event applies strictly increases (not decreases) as
the elapsed time increases, while the event remains active. -/
theorem C3_shock_force_increases (x0 y0 sg life pxi pyi t1 t2 : ℝ)
    (hlife : 0 < life) (ht1 : 0 ≤ t1) (ht : t1 < t2) (ht2 : t2 ≤ life)
    (hd : (pxi - x0) * (pxi - x0) + (pyi - y0) * (pyi - y0) ≠ 0)
    (hin : shockD { x := x0, y := y0, t := t1, life := life, sign := sg } pxi pyi <
      shockR { x := x0, y := y0, t := t1, life := life, sign := sg }) :
    Real.sqrt
      ((shockForce { x := x0, y := y0, t := t1, life := life, sign := sg } pxi pyi).1 *
        (shockForce { x := x0, y := y0, t := t1, life := life, sign := sg } pxi pyi).1 +
       (shockForce { x := x0, y := y0, t := t1, life := life, sign := sg } pxi pyi).2 *
        (shockForce { x := x0, y := y0, t := t1, life := life, sign := sg } pxi pyi).2) <
    Real.sqrt
      ((shockForce { x := x0, y := y0, t := t2, life := life, sign := sg } pxi pyi).1 *
        (shockForce { x := x0, y := y0, t := t2, life := life, sign := sg } pxi pyi).1 +
       (shockForce { x := x0, y := y0, t := t2, life := life, sign := sg } pxi pyi).2 *
        (shockForce { x := x0, y := y0, t := t2, life := life, sign := sg } pxi pyi).2) := by
  have hpos : 0 < (pxi - x0) * (pxi - x0) + (pyi - y0) * (pyi - y0) := by
    rcases lt_or_eq_of_le (add_nonneg (mul_self_nonneg (pxi - x0))
      (mul_self_nonneg (pyi - y0))) with h | h
    · exact h
    · exact absurd h.symm hd
  have hsqpos : 0 < Real.sqrt ((pxi - x0) * (pxi - x0) + (pyi - y0) * (pyi - y0)) :=
    Real.sqrt_pos.mpr hpos
  have hD : ∀ t : ℝ, shockD { x := x0, y := y0, t := t, life := life, sign := sg } pxi pyi =
      Real.sqrt ((pxi - x0) * (pxi - x0) + (pyi - y0) * (pyi - y0)) := by
    intro t
    unfold shockD
    rw [if_neg (ne_of_gt hsqpos)]
  have hR : ∀ t : ℝ, shockR { x := x0, y := y0, t := t, life := life, sign := sg } =
      30 + t / life * 260 := fun t => rfl
  rw [hD t1, hR t1] at hin
  rw [shockForce_mag _ pxi pyi hd, shockForce_mag _ pxi pyi hd, hD t1, hD t2, hR t1, hR t2]
  set d := Real.sqrt ((pxi - x0) * (pxi - x0) + (pyi - y0) * (pyi - y0)) with hdd
  have hr1pos : (0 : ℝ) < 30 + t1 / life * 260 := by positivity
  have h12 : t1 / life < t2 / life := by
    rw [div_eq_mul_inv, div_eq_mul_inv]
    exact mul_lt_mul_of_pos_right ht (by positivity)
  have hr2r1 : 30 + t1 / life * 260 < 30 + t2 / life * 260 := by nlinarith
  have hr2pos : (0 : ℝ) < 30 + t2 / life * 260 := lt_trans hr1pos hr2r1
  have hd1 : d / (30 + t1 / life * 260) < 1 := (div_lt_one hr1pos).mpr hin
  have hdr : d / (30 + t2 / life * 260) < d / (30 + t1 / life * 260) :=
    div_lt_div_of_pos_left hsqpos hr1pos hr2r1
  have hd2 : d / (30 + t2 / life * 260) < 1 := lt_trans hdr hd1
  rw [min_eq_right (le_of_lt hd1), min_eq_right (le_of_lt hd2)]
  rw [abs_of_nonneg (by nlinarith : (0 : ℝ) ≤ 1.8 * (1 - d / (30 + t1 / life * 260))),
    abs_of_nonneg (by nlinarith : (0 : ℝ) ≤ 1.8 * (1 - d / (30 + t2 / life * 260)))]
  nlinarith [hdr]

/-- Witness for the amended C3 at the concrete scenario of the
counterexample. -/
theorem C3_shock_force_increases_witness :
    ((0 : ℝ) < 1.2 ∧ (0 : ℝ) ≤ 0 ∧ (0 : ℝ) < 0.6 ∧ (0.6 : ℝ) ≤ 1.2 ∧
      ((10 : ℝ) - 0) * (10 - 0) + (0 - 0) * (0 - 0) ≠ 0 ∧
      shockD { x := 0, y := 0, t := 0, life := 1.2, sign := 1 } 10 0 <
        shockR { x := 0, y := 0, t := 0, life := 1.2, sign := 1 }) ∧
    Real.sqrt
      ((shockForce { x := 0, y := 0, t := 0, life := 1.2, sign := 1 } 10 0).1 *
        (shockForce { x := 0, y := 0, t := 0, life := 1.2, sign := 1 } 10 0).1 +
       (shockForce { x := 0, y := 0, t := 0, life := 1.2, sign := 1 } 10 0).2 *
        (shockForce { x := 0, y := 0, t := 0, life := 1.2, sign := 1 } 10 0).2) <
    Real.sqrt
      ((shockForce { x := 0, y := 0, t := 0.6, life := 1.2, sign := 1 } 10 0).1 *
        (shockForce { x := 0, y := 0, t := 0.6, life := 1.2, sign := 1 } 10 0).1 +
       (shockForce { x := 0, y := 0, t := 0.6, life := 1.2, sign := 1 } 10 0).2 *
        (shockForce { x := 0, y := 0, t := 0.6, life := 1.2, sign := 1 } 10 0).2) := by
  have hin : shockD { x := 0, y := 0, t := 0, life := 1.2, sign := 1 } 10 0 <
      shockR { x := 0, y := 0, t := 0, life := 1.2, sign := 1 } := by
    have hsd : shockD { x := 0, y := 0, t := 0, life := 1.2, sign := 1 } 10 0 = 10 := by
      unfold shockD
      norm_num
      rw [show (100 : ℝ) = 10 ^ 2 by norm_num, Real.sqrt_sq (by norm_num : (0 : ℝ) ≤ 10)]
    have hsr : shockR { x := 0, y := 0, t := 0, life := 1.2, sign := 1 } = 30 := by
      unfold shockR
      norm_num
    rw [hsd, hsr]
    norm_num
  exact ⟨⟨by norm_num, le_refl 0, by norm_num, by norm_num, by norm_num, hin⟩,
    C3_shock_force_increases 0 0 1 1.2 10 0 0 0.6 (by norm_num) (le_refl 0)
      (by norm_num) (by norm_num) (by norm_num) hin⟩

/-- The event list after one frame is exactly `stepEffects`: advance every
`t` by `dt`, drop events whose progress reached 1. -/
theorem stepSim_effects (cfg : Cfg) (fuel : ℕ) (dt : ℝ) (s : SimState) :
    (stepSim cfg fuel dt s).effects = stepEffects dt s.effects := rfl

theorem stepEffects_nil (dt : ℝ) : stepEffects dt [] = [] := rfl

theorem runSim_effects (cfg : Cfg) (fuel : ℕ) :
    ∀ (dts : List ℝ) (s : SimState),
      (runSim cfg fuel dts s).effects =
        dts.foldl (fun es d => stepEffects d es) s.effects := by
  intro dts
  induction dts with
  | nil => intro s; rfl
  | cons d rest ih =>
    intro s
    show (runSim cfg fuel rest (stepSim cfg fuel d s)).effects = _
    rw [ih (stepSim cfg fuel d s), stepSim_effects]
    rfl

theorem foldl_stepEffects_nil :
    ∀ dts : List ℝ, dts.foldl (fun es d => stepEffects d es) [] = [] := by
  intro dts
  induction dts with
  | nil => rfl
  | cons d rest ih => simpa [stepEffects_nil] using ih

/-- Lifecycle of a single live event under nonnegative frame deltas: it
survives the whole dt sequence, with elapsed time the accumulated sum, exactly
when that sum stays below its life; the first frame in which the progress
reaches 1 removes it and it never reappears. -/
theorem effects_lifecycle (x y sg L : ℝ) (hL : 0 < L) :
    ∀ (dts : List ℝ) (t0 : ℝ), 0 ≤ t0 → t0 < L → (∀ d ∈ dts, 0 ≤ d) →
      dts.foldl (fun es d => stepEffects d es)
          [{ x := x, y := y, t := t0, life := L, sign := sg }] =
        (if t0 + dts.sum < L then
          [{ x := x, y := y, t := t0 + dts.sum, life := L, sign := sg }]
         else []) := by
  intro dts
  induction dts with
  | nil =>
    intro t0 h0 hlt _
    simp [hlt]
  | cons d rest ih =>
    intro t0 h0 hlt hd
    have hd0 : 0 ≤ d := hd d (List.mem_cons_self _ _)
    have hdr : ∀ e ∈ rest, 0 ≤ e := fun e he => hd e (List.mem_cons_of_mem _ he)
    have hrs : 0 ≤ rest.sum := List.sum_nonneg hdr
    simp only [List.foldl_cons, List.sum_cons]
    have hstep : stepEffects d [{ x := x, y := y, t := t0, life := L, sign := sg }] =
        (if t0 + d < L then
          [{ x := x, y := y, t := t0 + d, life := L, sign := sg }] else []) := by
      unfold stepEffects
      simp only [List.map_cons, List.map_nil, List.filter]
      by_cases hc : t0 + d < L
      · rw [if_pos hc]
        have : (t0 + d) / L < 1 := (div_lt_one hL).mpr hc
        simp [this]
      · rw [if_neg hc]
        push_neg at hc
        have : ¬ (t0 + d) / L < 1 := not_lt.mpr ((one_le_div hL).mpr hc)
        simp [this]
    rw [hstep]
    by_cases hc : t0 + d < L
    · rw [if_pos hc]
      rw [ih (t0 + d) (by linarith) hc hdr]
      by_cases hc2 : t0 + d + rest.sum < L
      · rw [if_pos hc2, if_pos (by linarith)]
        simp [add_assoc]
      · rw [if_neg hc2, if_neg (by intro hcon; exact hc2 (by linarith))]
    · rw [if_neg hc]
      rw [foldl_stepEffects_nil]
      rw [if_neg (by push_neg at hc ⊢; linarith)]

/-- C8: an event injected via `spawnShock` (t = 0, life = 1.2) remains in the
active set while its elapsed time (the accumulated dt sum) is below 1.2, is
removed by the end of the first step in which its progress t/life reaches 1,
and while active satisfies 0 ≤ t ≤ life. -/
theorem C8_event_lifecycle (cfg : Cfg) (fuel : ℕ) (x y sg : ℝ) (dts : List ℝ)
    (s : SimState) (hs : s.effects = [spawnShock x y sg]) (hd : ∀ d ∈ dts, 0 ≤ d) :
    (runSim cfg fuel dts s).effects =
      (if dts.sum < 1.2 then
        [{ x := x, y := y, t := dts.sum, life := 1.2, sign := sg }] else []) ∧
    ∀ E ∈ (runSim cfg fuel dts s).effects, 0 ≤ E.t ∧ E.t ≤ E.life := by
  have h1 : (runSim cfg fuel dts s).effects =
      (if dts.sum < 1.2 then
        [{ x := x, y := y, t := dts.sum, life := 1.2, sign := sg }] else []) := by
    rw [runSim_effects, hs]
    have := effects_lifecycle x y sg 1.2 (by norm_num) dts 0 (le_refl 0) (by norm_num) hd
    simpa [spawnShock] using this
  refine ⟨h1, ?_⟩
  intro E hE
  rw [h1] at hE
  split_ifs at hE with hlt
  · simp only [List.mem_singleton] at hE
    rw [hE]
    exact ⟨List.sum_nonneg hd, by norm_num at hlt ⊢; linarith⟩
  · simp at hE

/-- Witness for C8: two frames of 0.5s and then one of 0.4s kill the event. -/
theorem C8_event_lifecycle_witness :
    (({ px := fun _ => 10, py := fun _ => 10, vx := fun _ => 0, vy := fun _ => 0,
        hue := fun _ => 200, effects := [spawnShock 5 5 1] } : SimState).effects =
        [spawnShock 5 5 1] ∧
      (∀ d ∈ [(0.5 : ℝ), 0.5, 0.4], 0 ≤ d)) ∧
    ((runSim cfgEx 5 [(0.5 : ℝ), 0.5, 0.4]
        { px := fun _ => 10, py := fun _ => 10, vx := fun _ => 0, vy := fun _ => 0,
          hue := fun _ => 200, effects := [spawnShock 5 5 1] }).effects =
      (if [(0.5 : ℝ), 0.5, 0.4].sum < 1.2 then
        [{ x := 5, y := 5, t := [(0.5 : ℝ), 0.5, 0.4].sum, life := 1.2, sign := 1 }]
       else []) ∧
    ∀ E ∈ (runSim cfgEx 5 [(0.5 : ℝ), 0.5, 0.4]
        { px := fun _ => 10, py := fun _ => 10, vx := fun _ => 0, vy := fun _ => 0,
          hue := fun _ => 200, effects := [spawnShock 5 5 1] }).effects,
      0 ≤ E.t ∧ E.t ≤ E.life) := by
  have hd : ∀ d ∈ [(0.5 : ℝ), 0.5, 0.4], 0 ≤ d := by
    intro d hdm
    simp only [List.mem_cons, List.not_mem_nil, or_false] at hdm
    rcases hdm with rfl | rfl | rfl <;> norm_num
  exact ⟨⟨rfl, hd⟩, C8_event_lifecycle cfgEx 5 5 5 1 [(0.5 : ℝ), 0.5, 0.4] _ rfl hd⟩

/-- C9: two independent runs with identical seed (the base hue driving the
seeded PRNG), identical configuration, the same sequence of fixed dt values
and no injected events produce identical agent trajectories: every step's
entire state (positions and velocities included) coincides. -/
theorem C9_determinism (cfg : Cfg) (fuel : ℕ) (hue0 : ℕ) (dts : ℕ → ℝ)
    (tr1 tr2 : ℕ → SimState) (h1 : IsRun cfg fuel hue0 dts tr1)
    (h2 : IsRun cfg fuel hue0 dts tr2) : ∀ n, tr1 n = tr2 n := by
  intro n
  induction n with
  | zero => rw [h1.1, h2.1]
  | succ n ih => rw [h1.2 n, h2.2 n, ih]

/-- Witness for C9: the canonical iterated run satisfies `IsRun` and the
theorem applies to two copies of it. -/
theorem C9_determinism_witness :
    (IsRun cfgEx 5 210 (fun _ => 1 / 60) (canonicalRun cfgEx 5 210 (fun _ => 1 / 60)) ∧
      IsRun cfgEx 5 210 (fun _ => 1 / 60) (canonicalRun cfgEx 5 210 (fun _ => 1 / 60))) ∧
    canonicalRun cfgEx 5 210 (fun _ => 1 / 60) 3 =
      canonicalRun cfgEx 5 210 (fun _ => 1 / 60) 3 := by
  have hrun : IsRun cfgEx 5 210 (fun _ => 1 / 60)
      (canonicalRun cfgEx 5 210 (fun _ => 1 / 60)) := ⟨rfl, fun n => rfl⟩
  exact ⟨⟨hrun, hrun⟩,
    C9_determinism cfgEx 5 210 (fun _ => 1 / 60) _ _ hrun hrun 3⟩

/-- The members of the candidate list that the inner loop counts for the
alignment/cohesion sums. -/
def visList (cfg : Cfg) (s : SimState) (i : ℕ) (tmp : List ℕ) : List ℕ :=
  tmp.filter fun j => decide (nbCond cfg s i j)

/-- The members of the candidate list that the inner loop counts for the
separation sum. -/
def sepList (cfg : Cfg) (s : SimState) (i : ℕ) (tmp : List ℕ) : List ℕ :=
  tmp.filter fun j => decide (sepCond cfg s i j)

theorem visList_cons_pos (cfg : Cfg) (s : SimState) (i j : ℕ) (tmp : List ℕ)
    (h : nbCond cfg s i j) :
    visList cfg s i (j :: tmp) = j :: visList cfg s i tmp := by
  simp [visList, List.filter_cons, h]

theorem visList_cons_neg (cfg : Cfg) (s : SimState) (i j : ℕ) (tmp : List ℕ)
    (h : ¬ nbCond cfg s i j) :
    visList cfg s i (j :: tmp) = visList cfg s i tmp := by
  simp [visList, List.filter_cons, h]

theorem sepList_cons_pos (cfg : Cfg) (s : SimState) (i j : ℕ) (tmp : List ℕ)
    (h : sepCond cfg s i j) :
    sepList cfg s i (j :: tmp) = j :: sepList cfg s i tmp := by
  simp [sepList, List.filter_cons, h]

theorem sepList_cons_neg (cfg : Cfg) (s : SimState) (i j : ℕ) (tmp : List ℕ)
    (h : ¬ sepCond cfg s i j) :
    sepList cfg s i (j :: tmp) = sepList cfg s i tmp := by
  simp [sepList, List.filter_cons, h]

/-- Closed form of the flocking inner loop: folding `flockStep` over the
candidate list accumulates exactly the sums, counts and (negated, normalised)
separation offsets of the candidates passing the vision and separation
conditions. -/
theorem flock_foldl (cfg : Cfg) (s : SimState) (i : ℕ) :
    ∀ (tmp : List ℕ) (a : FlockAcc),
      tmp.foldl (flockStep cfg s i) a =
        { cx := a.cx + ((visList cfg s i tmp).map fun j => s.px j).sum,
          cy := a.cy + ((visList cfg s i tmp).map fun j => s.py j).sum,
          vxsum := a.vxsum + ((visList cfg s i tmp).map fun j => s.vx j).sum,
          vysum := a.vysum + ((visList cfg s i tmp).map fun j => s.vy j).sum,
          sx := a.sx - ((sepList cfg s i tmp).map fun j =>
            (s.px j - s.px i) / Real.sqrt (dist2 s i j)).sum,
          sy := a.sy - ((sepList cfg s i tmp).map fun j =>
            (s.py j - s.py i) / Real.sqrt (dist2 s i j)).sum,
          total := a.total + (visList cfg s i tmp).length,
          sclose := a.sclose + (sepList cfg s i tmp).length } := by
  intro tmp
  induction tmp with
  | nil => intro a; simp [visList, sepList]
  | cons j rest ih =>
    intro a
    rw [List.foldl_cons, ih]
    by_cases hji : j = i
    · have hnb : ¬ nbCond cfg s i j := fun hc => hc.1 hji
      have hsp : ¬ sepCond cfg s i j := fun hc => hc.1 hji
      rw [visList_cons_neg cfg s i j rest hnb, sepList_cons_neg cfg s i j rest hsp,
        show flockStep cfg s i a j = a by rw [flockStep, if_pos hji]]
    · by_cases hd2 : dist2 s i j = 0
      · have hnb : ¬ nbCond cfg s i j := fun hc => hc.2.1 hd2
        have hsp : ¬ sepCond cfg s i j := fun hc => hc.2.1 hd2
        rw [visList_cons_neg cfg s i j rest hnb, sepList_cons_neg cfg s i j rest hsp,
          show flockStep cfg s i a j = a by rw [flockStep, if_neg hji, if_pos hd2]]
      · have hd2pos : 0 < dist2 s i j :=
          lt_of_le_of_ne (add_nonneg (mul_self_nonneg _) (mul_self_nonneg _)) (Ne.symm hd2)
        have hsq0 : Real.sqrt (dist2 s i j) ≠ 0 := ne_of_gt (Real.sqrt_pos.mpr hd2pos)
        rw [show flockStep cfg s i a j = flockSep cfg s i (flockVis cfg s i a j) j by
          rw [flockStep, if_neg hji, if_neg hd2]]
        by_cases hv : Real.sqrt (dist2 s i j) < cfg.vision <;>
          by_cases hs2 : Real.sqrt (dist2 s i j) < cfg.sep
        · rw [visList_cons_pos cfg s i j rest ⟨hji, hd2, hv⟩,
            sepList_cons_pos cfg s i j rest ⟨hji, hd2, hs2⟩,
            flockVis, if_pos hv, flockSep, if_pos hs2, if_neg hsq0]
          ext <;> dsimp only <;>
            simp only [List.map_cons, List.sum_cons, List.length_cons] <;> ring
        · rw [visList_cons_pos cfg s i j rest ⟨hji, hd2, hv⟩,
            sepList_cons_neg cfg s i j rest (fun hc => hs2 hc.2.2),
            flockVis, if_pos hv, flockSep, if_neg hs2]
          ext <;> dsimp only <;>
            simp only [List.map_cons, List.sum_cons, List.length_cons] <;> ring
        · rw [visList_cons_neg cfg s i j rest (fun hc => hv hc.2.2),
            sepList_cons_pos cfg s i j rest ⟨hji, hd2, hs2⟩,
            flockVis, if_neg hv, flockSep, if_pos hs2, if_neg hsq0]
          ext <;> dsimp only <;>
            simp only [List.map_cons, List.sum_cons, List.length_cons] <;> ring
        · rw [visList_cons_neg cfg s i j rest (fun hc => hv hc.2.2),
            sepList_cons_neg cfg s i j rest (fun hc => hs2 hc.2.2),
            flockVis, if_neg hv, flockSep, if_neg hs2]

/-- Squared distance is symmetric in the two agents. -/
theorem dist2_symm (s : SimState) (i j : ℕ) : dist2 s j i = dist2 s i j := by
  unfold dist2
  ring

/-- Removing one fixed element that a filter rejects anyway does not change
the filter's result. -/
theorem filter_erase_ne (p : ℕ → Bool) (j : ℕ) (hpj : p j = false) :
    ∀ tmp : List ℕ, (tmp.filter fun k => decide (k ≠ j)).filter p = tmp.filter p := by
  intro tmp
  induction tmp with
  | nil => rfl
  | cons k rest ih =>
    by_cases hk : k = j
    · subst hk
      have h1 : List.filter (fun a => decide (a ≠ k)) (k :: rest) =
          List.filter (fun a => decide (a ≠ k)) rest := by
        rw [List.filter_cons]
        simp
      have h2 : List.filter p (k :: rest) = List.filter p rest := by
        rw [List.filter_cons]
        simp [hpj]
      rw [h1, h2, ih]
    · have h1 : List.filter (fun a => decide (a ≠ j)) (k :: rest) =
          k :: List.filter (fun a => decide (a ≠ j)) rest := by
        rw [List.filter_cons]
        simp [hk]
      rw [h1, List.filter_cons, List.filter_cons, ih]

theorem visList_filter_ne (cfg : Cfg) (s : SimState) (i j : ℕ)
    (hnb : ¬ nbCond cfg s i j) (tmp : List ℕ) :
    visList cfg s i (tmp.filter fun k => decide (k ≠ j)) = visList cfg s i tmp :=
  filter_erase_ne _ j (decide_eq_false hnb) tmp

theorem sepList_filter_ne (cfg : Cfg) (s : SimState) (i j : ℕ)
    (hsp : ¬ sepCond cfg s i j) (tmp : List ℕ) :
    sepList cfg s i (tmp.filter fun k => decide (k ≠ j)) = sepList cfg s i tmp :=
  filter_erase_ne _ j (decide_eq_false hsp) tmp

/-- C7: two agents whose exact distance exceeds `vision` (under the
configuration precondition sep < vision) contribute exactly zero acceleration
to each other in the flocking pass, even when the quadtree's coarse query
returns the other agent as a candidate: deleting the other agent from either
agent's candidate list leaves the computed flocking force unchanged.  Exactly
coincident agents (distance 0) likewise contribute nothing to any alignment,
cohesion or separation sum. -/
theorem C7_no_contribution (cfg : Cfg) (s : SimState) (i j : ℕ) (tmp tmp2 : List ℕ)
    (hsep : cfg.sep < cfg.vision)
    (hfar : cfg.vision < Real.sqrt (dist2 s i j) ∨ dist2 s i j = 0) :
    flockForce cfg s i (tmp.filter fun k => decide (k ≠ j)) = flockForce cfg s i tmp ∧
    flockForce cfg s j (tmp2.filter fun k => decide (k ≠ i)) = flockForce cfg s j tmp2 := by
  have hsym : dist2 s j i = dist2 s i j := dist2_symm s i j
  have hnb : ¬ nbCond cfg s i j := by
    rcases hfar with h | h
    · exact fun hc => absurd hc.2.2 (not_lt.mpr (le_of_lt h))
    · exact fun hc => hc.2.1 h
  have hsp : ¬ sepCond cfg s i j := by
    rcases hfar with h | h
    · exact fun hc => absurd (lt_trans hc.2.2 hsep) (not_lt.mpr (le_of_lt h))
    · exact fun hc => hc.2.1 h
  have hnb2 : ¬ nbCond cfg s j i := fun hc =>
    hnb ⟨Ne.symm hc.1, by rw [← hsym]; exact hc.2.1, by rw [← hsym]; exact hc.2.2⟩
  have hsp2 : ¬ sepCond cfg s j i := fun hc =>
    hsp ⟨Ne.symm hc.1, by rw [← hsym]; exact hc.2.1, by rw [← hsym]; exact hc.2.2⟩
  constructor
  · unfold flockForce
    rw [flock_foldl, flock_foldl, visList_filter_ne cfg s i j hnb tmp,
      sepList_filter_ne cfg s i j hsp tmp]
  · unfold flockForce
    rw [flock_foldl, flock_foldl, visList_filter_ne cfg s j i hnb2 tmp2,
      sepList_filter_ne cfg s j i hsp2 tmp2]

/-- A two-agent state with the agents 200 apart, for the C7 witness. -/
def stateFar : SimState :=
  { px := fun n => if n = 0 then 0 else 200, py := fun _ => 0,
    vx := fun _ => 0, vy := fun _ => 0, hue := fun _ => 200, effects := [] }

theorem C7_no_contribution_witness :
    (cfgEx.sep < cfgEx.vision ∧
      (cfgEx.vision < Real.sqrt (dist2 stateFar 0 1) ∨ dist2 stateFar 0 1 = 0)) ∧
    (flockForce cfgEx stateFar 0 ([0, 1].filter fun k => decide (k ≠ 1)) =
        flockForce cfgEx stateFar 0 [0, 1] ∧
      flockForce cfgEx stateFar 1 ([0, 1].filter fun k => decide (k ≠ 0)) =
        flockForce cfgEx stateFar 1 [0, 1]) := by
  have hd : dist2 stateFar 0 1 = 40000 := by norm_num [dist2, stateFar]
  have hfar : cfgEx.vision < Real.sqrt (dist2 stateFar 0 1) ∨ dist2 stateFar 0 1 = 0 := by
    left
    rw [hd, show (40000 : ℝ) = 200 ^ 2 by norm_num,
      Real.sqrt_sq (by norm_num : (0 : ℝ) ≤ 200)]
    norm_num [cfgEx]
  have hsep : cfgEx.sep < cfgEx.vision := by norm_num [cfgEx]
  exact ⟨⟨hsep, hfar⟩, C7_no_contribution cfgEx stateFar 0 1 [0, 1] [0, 1] hsep hfar⟩

/-- Each insert of a build reports exactly one boolean. -/
theorem buildD_len (cap fuel : ℕ) :
    ∀ (pts : List (ℕ × ℝ × ℝ)) (t : QT ℝ),
      (buildD cap fuel pts t).2.length = pts.length := by
  intro pts
  induction pts with
  | nil => intro t; rfl
  | cons e rest ih =>
    intro t
    obtain ⟨i, x, y⟩ := e
    simp [buildD, ih]

/-- Summing the negations of a mapped list negates the sum. -/
theorem map_sum_neg (f : ℕ → ℝ) :
    ∀ l : List ℕ, (l.map fun j => -f j).sum = -(l.map f).sum := by
  intro l
  induction l with
  | nil => simp
  | cons a t ih =>
    rw [List.map_cons, List.sum_cons, List.map_cons, List.sum_cons, ih]
    ring

/-- C4: for an agent with at least one neighbor strictly closer than vision,
the flocking pass adds exactly clamp(average neighbor velocity − own
velocity, maxForce) × alignWeight plus clamp(average neighbor position − own
position, maxForce) × cohesionWeight, plus — when at least one neighbor is
strictly closer than sep — clamp(sum of unit vectors pointing away from the
close neighbors, maxForce × 1.5) × separationWeight: the force computed from
the quadtree query candidates coincides with the specification formula over
the exact neighbor sets, whenever the build succeeded for every agent and
sep ≤ vision. -/
theorem C4_flocking_formula (cfg : Cfg) (s : SimState) (fuel i : ℕ)
    (hsep : cfg.sep ≤ cfg.vision)
    (hbuild : ∀ b ∈ (buildD cfg.qtCap fuel (agentEntries cfg s)
      (QT.leaf 0 0 cfg.W cfg.H [])).2, b = true)
    (hnb : neighborList cfg s i ≠ []) :
    flockForce cfg s i
        (queryNode (buildD cfg.qtCap fuel (agentEntries cfg s)
          (QT.leaf 0 0 cfg.W cfg.H [])).1 (s.px i) (s.py i) cfg.vision) =
      specFlock cfg s i := by
  have hinv0 : invQT cfg.qtCap (QT.leaf (0 : ℝ) 0 cfg.W cfg.H []) := by
    simp [invQT]
  have hwf0 : wfQT (QT.leaf (0 : ℝ) 0 cfg.W cfg.H []) := by
    simp [wfQT]
  set base := QT.leaf (0 : ℝ) 0 cfg.W cfg.H [] with hbase
  set T := (buildD cfg.qtCap fuel (agentEntries cfg s) base).1 with hT
  set tmp := queryNode T (s.px i) (s.py i) cfg.vision with htmp
  have hperm : (entries T).Perm (agentEntries cfg s) := by
    have h := buildD_entries_all_true cfg.qtCap fuel (agentEntries cfg s) base
      hinv0 hwf0 hbuild
    simpa [hbase, entries] using h
  have hmapfst : (agentEntries cfg s).map (fun e => e.1) = List.range cfg.count := by
    have hcomp : ((fun (e : ℕ × ℝ × ℝ) => e.1) ∘ fun k : ℕ => (k, s.px k, s.py k)) =
        id := rfl
    simp only [agentEntries, List.map_map, hcomp, List.map_id]
  have hnodupT : ((entries T).map (fun e => e.1)).Nodup := by
    refine ((hperm.map (fun e => e.1)).nodup_iff).mpr ?_
    rw [hmapfst]
    exact List.nodup_range cfg.count
  have htdup : tmp.Nodup := query_nodup T (s.px i) (s.py i) cfg.vision hnodupT
  have hmem : ∀ k, nbCond cfg s i k → (k ∈ tmp ↔ k < cfg.count) := by
    intro k hk
    constructor
    · intro hkt
      obtain ⟨x, y, hxy⟩ := mem_entries_of_mem_query T (s.px i) (s.py i)
        cfg.vision k hkt
      have hka := hperm.mem_iff.mp hxy
      simp only [agentEntries, List.mem_map, List.mem_range] at hka
      obtain ⟨m, hm, heq⟩ := hka
      have hmk : m = k := congrArg Prod.fst heq
      exact hmk ▸ hm
    · intro hkc
      have hlen : (buildD cfg.qtCap fuel (agentEntries cfg s) base).2.length =
          cfg.count := by
        rw [buildD_len]
        simp [agentEntries]
      have hkl : k < (buildD cfg.qtCap fuel (agentEntries cfg s) base).2.length := by
        rw [hlen]
        exact hkc
      have hres : (buildD cfg.qtCap fuel (agentEntries cfg s) base).2.get? k =
          some true := by
        rw [List.get?_eq_get hkl]
        exact congrArg some (hbuild _ (List.get_mem _ _ _))
      have hag : (agentEntries cfg s).get? k = some (k, s.px k, s.py k) := by
        simp only [agentEntries]
        rw [List.get?_map, List.get?_range hkc]
        rfl
      have hst : storedIn T k (s.px k) (s.py k) :=
        buildD_stored cfg.qtCap fuel (agentEntries cfg s) base hinv0 hwf0 k k
          (s.px k) (s.py k) hres hag
      have hnn : (0 : ℝ) ≤ dist2 s i k :=
        add_nonneg (mul_self_nonneg _) (mul_self_nonneg _)
      have hself : Real.sqrt (dist2 s i k) * Real.sqrt (dist2 s i k) = dist2 s i k :=
        Real.mul_self_sqrt hnn
      have hd2 : (s.px i - s.px k) * (s.px i - s.px k) +
          (s.py i - s.py k) * (s.py i - s.py k) = dist2 s i k := by
        unfold dist2
        ring
      refine mem_query_of_storedIn T k (s.px k) (s.py k) (s.px i) (s.py i)
        cfg.vision hst ?_
      have hb2 : dist2 s i k ≤ cfg.vision * cfg.vision := by
        nlinarith [hk.2.2, Real.sqrt_nonneg (dist2 s i k), hself]
      linarith [hd2, hb2]
  have hvperm : (visList cfg s i tmp).Perm (neighborList cfg s i) := by
    refine (List.perm_ext_iff_of_nodup (htdup.filter _)
      ((List.nodup_range cfg.count).filter _)).mpr ?_
    intro k
    simp only [visList, neighborList, List.mem_filter, List.mem_range,
      decide_eq_true_eq]
    constructor
    · rintro ⟨hkt, hknb⟩
      exact ⟨(hmem k hknb).mp hkt, hknb⟩
    · rintro ⟨hkc, hknb⟩
      exact ⟨(hmem k hknb).mpr hkc, hknb⟩
  have hscb : ∀ k, sepCond cfg s i k ↔ closeCond cfg s i k := by
    intro k
    constructor
    · intro h
      exact ⟨⟨h.1, h.2.1, lt_of_lt_of_le h.2.2 hsep⟩, h.2.2⟩
    · intro h
      exact ⟨h.1.1, h.1.2.1, h.2⟩
  have hsperm : (sepList cfg s i tmp).Perm (closeList cfg s i) := by
    refine (List.perm_ext_iff_of_nodup (htdup.filter _)
      ((List.nodup_range cfg.count).filter _)).mpr ?_
    intro k
    simp only [sepList, closeList, List.mem_filter, List.mem_range,
      decide_eq_true_eq]
    constructor
    · rintro ⟨hkt, hksp⟩
      exact ⟨(hmem k ((hscb k).mp hksp).1).mp hkt, (hscb k).mp hksp⟩
    · rintro ⟨hkc, hkcl⟩
      exact ⟨(hmem k hkcl.1).mpr hkc, (hscb k).mpr hkcl⟩
  have hlv : (visList cfg s i tmp).length = (neighborList cfg s i).length :=
    hvperm.length_eq
  have hls : (sepList cfg s i tmp).length = (closeList cfg s i).length :=
    hsperm.length_eq
  have hsv : ∀ f : ℕ → ℝ, ((visList cfg s i tmp).map f).sum =
      ((neighborList cfg s i).map f).sum := fun f => (hvperm.map f).sum_eq
  have hssum : ∀ f : ℕ → ℝ, ((sepList cfg s i tmp).map f).sum =
      ((closeList cfg s i).map f).sum := fun f => (hsperm.map f).sum_eq
  have hpx : ∀ j, (s.px i - s.px j) / Real.sqrt (dist2 s i j) =
      -((s.px j - s.px i) / Real.sqrt (dist2 s i j)) := by
    intro j
    rw [← neg_div, neg_sub]
  have hpy : ∀ j, (s.py i - s.py j) / Real.sqrt (dist2 s i j) =
      -((s.py j - s.py i) / Real.sqrt (dist2 s i j)) := by
    intro j
    rw [← neg_div, neg_sub]
  unfold flockForce
  rw [flock_foldl, flockCombine, specFlock]
  dsimp only
  simp only [hsv, hssum, hlv, hls, zero_add, zero_sub, gt_iff_lt,
    List.length_pos_iff_ne_nil, hpx, hpy, map_sum_neg]

/-- A two-agent configuration for the C4 witness. -/
def cfgEx2 : Cfg :=
  { count := 2, W := 100, H := 100, vision := 50, sep := 10, maxSpeed := 3,
    maxForce := 1 / 20, alignW := 1, cohesionW := 1, separationW := 2, qtCap := 8,
    wrap := true }

/-- A two-agent state with the agents exactly 5 apart, for the C4 witness. -/
def stateNear : SimState :=
  { px := fun n => if n = 0 then 10 else 14,
    py := fun n => if n = 0 then 10 else 13,
    vx := fun _ => 0, vy := fun _ => 0, hue := fun _ => 200, effects := [] }

theorem C4_flocking_formula_witness :
    (cfgEx2.sep ≤ cfgEx2.vision ∧
      (∀ b ∈ (buildD cfgEx2.qtCap 5 (agentEntries cfgEx2 stateNear)
        (QT.leaf 0 0 cfgEx2.W cfgEx2.H [])).2, b = true) ∧
      neighborList cfgEx2 stateNear 0 ≠ []) ∧
    flockForce cfgEx2 stateNear 0
        (queryNode (buildD cfgEx2.qtCap 5 (agentEntries cfgEx2 stateNear)
          (QT.leaf 0 0 cfgEx2.W cfgEx2.H [])).1 (stateNear.px 0) (stateNear.py 0)
          cfgEx2.vision) =
      specFlock cfgEx2 stateNear 0 := by
  have hr2 : List.range 2 = [0, 1] := rfl
  have hag : agentEntries cfgEx2 stateNear = [(0, 10, 10), (1, 14, 13)] := by
    rw [agentEntries, show cfgEx2.count = 2 from rfl, hr2]
    norm_num [stateNear]
  have hsepv : cfgEx2.sep ≤ cfgEx2.vision := by norm_num [cfgEx2]
  have hbuild : ∀ b ∈ (buildD cfgEx2.qtCap 5 (agentEntries cfgEx2 stateNear)
      (QT.leaf 0 0 cfgEx2.W cfgEx2.H [])).2, b = true := by
    rw [hag]
    have hres := buildD_small cfgEx2.qtCap 5
      ([(0, 10, 10), (1, 14, 13)] : List (ℕ × ℝ × ℝ)) [] 0 0 cfgEx2.W cfgEx2.H
      (by norm_num [cfgEx2])
      (by
        intro e he
        simp only [List.mem_cons, List.not_mem_nil, or_false] at he
        rcases he with rfl | rfl <;> norm_num [inRect, cfgEx2])
    rw [hres]
    intro b hb
    exact List.eq_of_mem_replicate hb
  have hd25 : dist2 stateNear 0 1 = 25 := by norm_num [dist2, stateNear]
  have hs5 : Real.sqrt (dist2 stateNear 0 1) = 5 := by
    rw [hd25, show (25 : ℝ) = 5 ^ 2 by norm_num,
      Real.sqrt_sq (by norm_num : (0 : ℝ) ≤ 5)]
  have hnb01 : nbCond cfgEx2 stateNear 0 1 := by
    refine ⟨by norm_num, ?_, ?_⟩
    · rw [hd25]
      norm_num
    · rw [hs5]
      norm_num [cfgEx2]
  have hnb00 : ¬ nbCond cfgEx2 stateNear 0 0 := fun h => h.1 rfl
  have hnbl : neighborList cfgEx2 stateNear 0 = [1] := by
    rw [neighborList, show cfgEx2.count = 2 from rfl, hr2, List.filter_cons,
      if_neg (by simp [hnb00]), List.filter_cons, if_pos (by simp [hnb01]),
      List.filter_nil]
  have hne : neighborList cfgEx2 stateNear 0 ≠ [] := by
    rw [hnbl]
    simp
  exact ⟨⟨hsepv, hbuild, hne⟩,
    C4_flocking_formula cfgEx2 stateNear 5 0 hsepv hbuild hne⟩

end

end Boids
